import Mathlib

/-!
# chaosblade-exec-os : the `filldisk` executor

A shallow embedding of `exec/bin/filldisk/filldisk.go`.

* Part 1 embeds the size calculator `calculateFileSize`.  Go's `float64` is
  modelled exactly: a value is NaN, an infinity, or a rational, and every
  arithmetic step rounds its exact result to the nearest binary64 number, ties
  to even (`Float64.ofRat`).
* Part 2 embeds the controller (`Exec`, `startFill`, `stopFill` and the fill
  strategies).  The command channel is an oracle whose answers may depend on
  everything that was called before; a function takes the calls made so far and
  returns, with its result, the calls it made, each labelled with the function
  of the source that issued it.
* The theorems follow the definitions: facts about rounding, facts about the
  calls made, and then the claims `C1` to `C10` about the executor.
-/

namespace filldisk

/-! ## Part 1 : binary64 arithmetic -/

/-- Floor of the base-2 logarithm of `n`, by at most `fuel` halvings. -/
def log2Fuel : ℕ → ℕ → ℕ
  | 0, _ => 0
  | fuel + 1, n => if n < 2 then 0 else log2Fuel fuel (n / 2) + 1

/-- Floor of the base-2 logarithm of a positive natural number. -/
def natLog2 (n : ℕ) : ℕ := log2Fuel n n

/-- Floor of the base-2 logarithm of the magnitude of a non-zero rational. -/
def ilog2 (q : ℚ) : ℤ :=
  let d : ℤ := (natLog2 q.num.natAbs : ℤ) - (natLog2 q.den : ℤ)
  if (2 : ℚ) ^ d ≤ |q| then d else d - 1

/-- Round a rational to the nearest integer, ties to the even neighbour. -/
def roundHalfEven (q : ℚ) : ℤ :=
  let f := ⌊q⌋
  let r := q - f
  if r < 1 / 2 then f else if 1 / 2 < r then f + 1 else if f % 2 = 0 then f else f + 1

/-- A Go `float64`.  The two signed zeros are identified: in this program a zero
is only ever compared, subtracted, or produced as the positive zero of an
unsigned conversion, so its sign is never observable. -/
inductive Float64 where
  | nan : Float64
  | posInf : Float64
  | negInf : Float64
  | fin (q : ℚ) : Float64
deriving DecidableEq, Repr

namespace Float64

/-- Exponent of the unit in the last place at the magnitude of `q`:
53 significant bits, subnormals from `2^-1074`. -/
def ulpExp (q : ℚ) : ℤ := max (ilog2 q - 52) (-1074)

/-- Round an exact result to binary64, nearest with ties to even; a result of
magnitude `2^1024` or more overflows to an infinity. -/
def ofRat (q : ℚ) : Float64 :=
  if q = 0 then fin 0 else
  let e := ulpExp q
  let v : ℚ := (roundHalfEven (q / 2 ^ e) : ℚ) * 2 ^ e
  if (2 : ℚ) ^ (1024 : ℕ) ≤ |v| then (if 0 < q then posInf else negInf) else fin v

/-- Conversion `float64(n)` of an unsigned integer. -/
def ofNat (n : ℕ) : Float64 := ofRat n

/-- Conversion `float64(p)` of a signed integer. -/
def ofInt (p : ℤ) : Float64 := ofRat p

/-- IEEE division `x / y`; a zero divisor is the positive zero. -/
def div : Float64 → Float64 → Float64
  | nan, _ => nan
  | _, nan => nan
  | fin a, fin b =>
      if b = 0 then (if a = 0 then nan else if 0 < a then posInf else negInf)
      else ofRat (a / b)
  | fin _, _ => fin 0
  | posInf, fin b => if 0 ≤ b then posInf else negInf
  | negInf, fin b => if 0 ≤ b then negInf else posInf
  | _, _ => nan

/-- IEEE subtraction `x - y`. -/
def sub : Float64 → Float64 → Float64
  | nan, _ => nan
  | _, nan => nan
  | fin a, fin b => ofRat (a - b)
  | fin _, posInf => negInf
  | fin _, negInf => posInf
  | posInf, posInf => nan
  | negInf, negInf => nan
  | posInf, _ => posInf
  | negInf, _ => negInf

/-- IEEE multiplication `x * y`. -/
def mul : Float64 → Float64 → Float64
  | nan, _ => nan
  | _, nan => nan
  | fin a, fin b => ofRat (a * b)
  | fin a, posInf => if a = 0 then nan else if 0 < a then posInf else negInf
  | fin a, negInf => if a = 0 then nan else if 0 < a then negInf else posInf
  | posInf, fin b => if b = 0 then nan else if 0 < b then posInf else negInf
  | negInf, fin b => if b = 0 then nan else if 0 < b then negInf else posInf
  | posInf, posInf => posInf
  | negInf, negInf => posInf
  | posInf, negInf => negInf
  | negInf, posInf => negInf

/-- Comparison `x <= y`; false as soon as one side is NaN. -/
def le : Float64 → Float64 → Bool
  | nan, _ => false
  | _, nan => false
  | fin a, fin b => decide (a ≤ b)
  | negInf, _ => true
  | _, posInf => true
  | _, _ => false

/-- Comparison `x < y`; false as soon as one side is NaN. -/
def lt : Float64 → Float64 → Bool
  | nan, _ => false
  | _, nan => false
  | fin a, fin b => decide (a < b)
  | posInf, _ => false
  | _, negInf => false
  | _, _ => true

/-- Comparison `x >= y`. -/
def ge (x y : Float64) : Bool := le y x

/-- Function `math.Floor`. -/
def floor : Float64 → Float64
  | fin q => fin (⌊q⌋ : ℤ)
  | x => x

/-- The round trip `strconv.ParseFloat(fmt.Sprintf("%.2f", x), 64)`: the exact
value of `x` is rounded to two decimals (ties to even), and that decimal is read
back as the nearest binary64 number. -/
def round2 : Float64 → Float64
  | fin q => ofRat ((roundHalfEven (q * 100) : ℚ) / 100)
  | x => x

/-- Rendering `fmt.Sprintf("%.f", x)`: no fractional digits. -/
def fmt0 : Float64 → String
  | nan => "NaN"
  | posInf => "+Inf"
  | negInf => "-Inf"
  | fin q => (if q < 0 then "-" else "") ++ toString (roundHalfEven q).natAbs

end Float64

/-! ## Part 1 : the size calculator -/

/-- The fields of `syscall.Statfs_t` the calculator reads: `Blocks` and `Bavail`
are `uint64`, `Bsize` is `int64`. -/
structure Statfs_t where
  Blocks : ℕ
  Bavail : ℕ
  Bsize : ℤ
deriving DecidableEq, Repr

/-- Conversion `uint64(z)` of a signed integer. -/
def uint64 (z : ℤ) : ℕ := (z % 2 ^ 64).toNat

/-- Line 168, `stat.Blocks * uint64(stat.Bsize)` in `uint64`. -/
def Statfs_t.allBytes (stat : Statfs_t) : ℕ := (stat.Blocks * uint64 stat.Bsize) % 2 ^ 64

/-- Line 169, `stat.Bavail * uint64(stat.Bsize)` in `uint64`. -/
def Statfs_t.availableBytes (stat : Statfs_t) : ℕ := (stat.Bavail * uint64 stat.Bsize) % 2 ^ 64

/-- Line 170, `allBytes - availableBytes` in `uint64`. -/
def Statfs_t.usedBytes (stat : Statfs_t) : ℕ :=
  uint64 ((stat.allBytes : ℤ) - (stat.availableBytes : ℤ))

/-- Errors of the executor, one constructor per error value the source builds. -/
inductive GoError where
  /-- The error of `strconv.Atoi` or `strconv.ParseFloat` on `input`. -/
  | NumError (func input : String) : GoError
  /-- Value `"must specify start or stop operation"`. -/
  | InvalidMode : GoError
  /-- Value `"--directory flag value is empty"`. -/
  | MissingDirectory : GoError
  /-- Value `"less --size or --percent or --reserve flag"`. -/
  | MissingSizeSpec : GoError
  /-- Value `"calculate size err, %v"` around the calculator's error. -/
  | CalculateSize (cause : GoError) : GoError
  /-- Value `"the disk has been used %.2f, large than expected"`. -/
  | AlreadyExceeded (usedPercentage : Float64) : GoError
  /-- Value `"the disk has available size %.2f, less than expected"`. -/
  | InsufficientSpace (availableMB : Float64) : GoError
  /-- Value `fmt.Errorf(response.Err)`, with the message that `fmt` made of the
  error text of a command. -/
  | CommandFailed (message : String) : GoError
  /-- Value `"failed to read %s file, %s"`. -/
  | ArtifactUnreadable (dataFilePath cause : String) : GoError
deriving DecidableEq, Repr

deriving instance DecidableEq for Except

/-- What the calculator takes from outside the repository: the stat query and
the two parsers of package `strconv`. -/
structure Host where
  getSysStatFunc : String → Statfs_t
  Atoi : String → Except GoError ℤ
  ParseFloat : String → Except GoError Float64

/-- Function `calculateFileSize`: the size to fill, in M. -/
def calculateFileSize (host : Host) (directory size percent reserve : String) :
    Except GoError String :=
  if percent = "" ∧ reserve = "" then .ok size
  else
    let stat := host.getSysStatFunc directory
    let allBytes := stat.allBytes
    let availableBytes := stat.availableBytes
    let usedBytes := stat.usedBytes
    if percent ≠ "" then
      match host.Atoi percent with
      | .error err => .error err
      | .ok p =>
        let usedPercentage :=
          Float64.round2 (Float64.div (Float64.ofNat usedBytes) (Float64.ofNat allBytes))
        let expectedPercentage :=
          Float64.round2 (Float64.div (Float64.ofInt p) (Float64.ofRat 100))
        if Float64.ge usedPercentage expectedPercentage then
          .error (GoError.AlreadyExceeded usedPercentage)
        else
          let remainderPercentage := Float64.sub expectedPercentage usedPercentage
          let expectSize := Float64.floor
            (Float64.div (Float64.mul remainderPercentage (Float64.ofNat allBytes))
              (Float64.ofRat (1024 * 1024)))
          .ok (Float64.fmt0 expectSize)
    else
      match host.ParseFloat reserve with
      | .error err => .error err
      | .ok r =>
        let availableMB := Float64.div (Float64.ofNat availableBytes) (Float64.ofRat (1024 * 1024))
        if Float64.le availableMB r then
          .error (GoError.InsufficientSpace availableMB)
        else
          let expectSize := Float64.floor (Float64.sub availableMB r)
          .ok (Float64.fmt0 expectSize)

/-- Reading of a decimal string of digits with an optional sign, the inputs on
which `strconv.Atoi` succeeds for small numbers. -/
def decimalAtoi (s : String) : Except GoError ℤ :=
  let body := if s.startsWith "-" ∨ s.startsWith "+" then s.drop 1 else s
  if body.length = 0 ∨ 18 < body.length ∨ ¬ body.all Char.isDigit then
    .error (GoError.NumError "Atoi" s)
  else
    let n : ℤ := (body.foldl (fun acc c => acc * 10 + (c.toNat - 48)) 0 : ℕ)
    .ok (if s.startsWith "-" then -n else n)

/-- Reading of a plain decimal numeral as a float: an optional sign, digits, and
an optional point followed by digits.  On these inputs `strconv.ParseFloat`
succeeds with the binary64 number nearest to the decimal. -/
def decimalParseFloat (s : String) : Except GoError Float64 :=
  let body := if s.startsWith "-" ∨ s.startsWith "+" then s.data.drop 1 else s.data
  let whole := body.takeWhile Char.isDigit
  let rest := body.dropWhile Char.isDigit
  let frac := rest.drop 1
  if whole = [] ∨ (rest ≠ [] ∧ (rest.head? ≠ some '.' ∨ frac = [] ∨ ¬ frac.all Char.isDigit)) then
    .error (GoError.NumError "ParseFloat" s)
  else
    let n : ℕ := (whole ++ frac).foldl (fun acc c => acc * 10 + (c.toNat - 48)) 0
    let q : ℚ := (n : ℚ) / 10 ^ frac.length
    .ok (Float64.ofRat (if s.startsWith "-" then -q else q))

/-- A host whose every directory reports the given stat. -/
def hostOf (stat : Statfs_t) : Host :=
  { getSysStatFunc := fun _ => stat, Atoi := decimalAtoi, ParseFloat := decimalParseFloat }

/-! ## Part 2 : the controller -/

/-- Constant `fillDataFile`. -/
def fillDataFile : String := "chaos_filldisk.log.dat"

/-- Constant `diskFillErrorMessage`. -/
def diskFillErrorMessage : String := "No space left on device"

/-- Function `strings.Contains`. -/
def stringsContains (s substr : String) : Bool :=
  s.data.tails.any (fun t => substr.data.isPrefixOf t)

/-- Function `parsenum` of package `fmt`, on the characters up to its `end`: the
number read so far, whether a digit was read, and the characters left.  A number
above `10^6` is given up, and everything up to `end` is skipped. -/
def parsenum : List Char → ℕ → Bool → ℕ × Bool × List Char
  | [], num, isnum => (num, isnum, [])
  | c :: cs, num, isnum =>
    if c.isDigit then
      if 1000000 < num then (0, false, [])
      else parsenum cs (num * 10 + (c.toNat - 48)) true
    else (num, isnum, c :: cs)

/-- Function `parseArgNumber` of package `fmt`, on a format that starts with `[`:
the width of the index and whether it is a well-formed `[n]`.  The source tests
the length in bytes; a format of fewer than three characters and three or more
bytes holds no `]` after the `[`, so the answer is the same. -/
def parseArgNumber (s : List Char) : ℕ × Bool :=
  if s.length < 3 then (1, false)
  else
    let inner := (s.drop 1).takeWhile (fun c => c != ']')
    if inner.length + 1 < s.length then
      (inner.length + 2, (parsenum inner 0 false).2.1 && (parsenum inner 0 false).2.2.isEmpty)
    else (1, false)

/-- Method `argNumber` of package `fmt` when the call has no operand: the format
left, whether an index `[n]` was found, and whether the operand number is still
good.  Without operands no index is in range. -/
def argNumber (s : List Char) (good : Bool) : List Char × Bool × Bool :=
  if s.head? = some '[' then (s.drop (parseArgNumber s).1, (parseArgNumber s).2, false)
  else (s, false, good)

/-- The width of a verb in `doPrintf` when the call has no operand, from the
format left, whether an index precedes, and whether the operand number is good:
these three after the width, and the text written (`*` finds no operand). -/
def readWidth (a : List Char × Bool × Bool) : List Char × Bool × Bool × List Char :=
  if a.1.head? = some '*' then (a.1.drop 1, false, a.2.2, "%!(BADWIDTH)".data)
  else
    ((parsenum a.1 0 false).2.2, a.2.1, a.2.2 && !(a.2.1 && (parsenum a.1 0 false).2.1), [])

/-- The precision of a verb in `doPrintf` when the call has no operand, after the
width: the same four values after the precision. -/
def readPrecision (w : List Char × Bool × Bool × List Char) :
    List Char × Bool × Bool × List Char :=
  if w.1.head? = some '.' then
    if (argNumber (w.1.drop 1) (w.2.2.1 && !w.2.1)).1.head? = some '*' then
      ((argNumber (w.1.drop 1) (w.2.2.1 && !w.2.1)).1.drop 1, false,
        (argNumber (w.1.drop 1) (w.2.2.1 && !w.2.1)).2.2, w.2.2.2 ++ "%!(BADPREC)".data)
    else
      ((parsenum (argNumber (w.1.drop 1) (w.2.2.1 && !w.2.1)).1 0 false).2.2,
        (argNumber (w.1.drop 1) (w.2.2.1 && !w.2.1)).2.1,
        (argNumber (w.1.drop 1) (w.2.2.1 && !w.2.1)).2.2, w.2.2.2)
  else w

/-- The verb itself in `doPrintf` when the call has no operand: `%` for `%%`, a
`NOVERB` notice at the end of the format, and a `MISSING` or `BADINDEX` notice
for any other verb. -/
def writeVerb (out : List Char) (good : Bool) : List Char → List Char × List Char
  | [] => (out ++ "%!(NOVERB)".data, [])
  | verb :: rest =>
    if verb = '%' then (out ++ ['%'], rest)
    else if good then (out ++ "%!".data ++ [verb] ++ "(MISSING)".data, rest)
    else (out ++ "%!".data ++ [verb] ++ "(BADINDEX)".data, rest)

/-- One verb of method `doPrintf` of package `fmt` when the call has no operand,
from the character after the `%`: the text written and the format left.  Flags,
an index, a width, a precision and a second index are read, then the verb. -/
def printVerb (s : List Char) : List Char × List Char :=
  let flagged := s.dropWhile (fun c => c == '#' || c == '0' || c == '+' || c == '-' || c == ' ')
  let pr := readPrecision (readWidth (argNumber flagged true))
  let last := if pr.2.1 then (pr.1, true, pr.2.2.1) else argNumber pr.1 pr.2.2.1
  writeVerb pr.2.2.2 last.2.2 last.1

/-- Method `doPrintf` of package `fmt` when the call has no operand: text is
copied up to the next `%`, then one verb is processed.  Every step takes at
least one character, so a fuel of the length of the format is enough. -/
def doPrintf : ℕ → List Char → List Char
  | 0, _ => []
  | _ + 1, [] => []
  | fuel + 1, c :: cs =>
    if c = '%' then (printVerb cs).1 ++ doPrintf fuel (printVerb cs).2
    else c :: doPrintf fuel cs

/-- The message of `fmt.Errorf(format)`, a call with a format and no operand. -/
def Errorf (format : String) : String := String.mk (doPrintf format.length format.data)

/-- Type `spec.Response`, without its numeric code.  `Result` is the output of
the command, which `startFill` reads as a string. -/
structure Response where
  Success : Bool
  Err : String
  Result : String
deriving DecidableEq, Repr

/-- Function `spec.ReturnSuccess`. -/
def ReturnSuccess (result : String) : Response := { Success := true, Err := "", Result := result }

/-- Function `spec.ReturnFail`. -/
def ReturnFail (err : String) : Response := { Success := false, Err := err, Result := "" }

/-- The function of the source that makes a call on the channel. -/
inductive Caller where
  | startFill : Caller
  | fillDiskByFallocate : Caller
  | fillDiskByDD : Caller
  | startRetainProcess : Caller
  | stopFill : Caller
deriving DecidableEq, Repr

/-- One call on the channel.  `ctx` is the value stored under
`channel.ProcessKey` in the context of the call, if any. -/
inductive Event where
  | IsCommandAvailable (caller : Caller) (commandName : String) : Event
  | Run (caller : Caller) (ctx : Option String) (script args : String) : Event
  | GetPidsByProcessName (caller : Caller) (processName : String) (ctx : Option String) : Event
deriving DecidableEq, Repr

/-- The function that issued the call. -/
def Event.caller : Event → Caller
  | .IsCommandAvailable c _ => c
  | .Run c _ _ _ => c
  | .GetPidsByProcessName c _ _ => c

/-- Interface `channel.OsChannel`, as far as the executor uses it.  Every answer
may depend on the calls made so far.  The process lookup returns a slice (`none`
is the nil slice) and an error. -/
structure OsChannel where
  IsCommandAvailable : List Event → String → Bool
  Run : List Event → Option String → String → String → Response
  GetPidsByProcessName : List Event → String → Option String →
    Option (List String) × Option String

/-- The host of Part 1 with what the controller reads besides the channel:
`path.Join`, `util.IsExist`, `os.Open` (the error text when it fails),
`util.GetLogFile(util.Bin)`, `util.GetProgramPath()` and the constant
`exec.FillDiskBin`. -/
structure OsHost extends Host where
  pathJoin : String → String → String
  IsExist : List Event → String → Bool
  osOpen : List Event → String → Option String
  GetLogFile : Except String String
  GetProgramPath : String
  fillDiskBin : String

/-- Type `FillDisk`: the flags and the channel. -/
structure FillDisk where
  FillDiskDirectory : String
  FillDiskSize : String
  ReserveDiskSize : String
  FillDiskPercent : String
  FillDiskStart : Bool
  FillDiskStop : Bool
  FillDiskRetainHandle : Bool
  FillDiskRetainNohup : Bool
  Channel : OsChannel

/-- How `retainFileHandle` ends: it returns an error, or it reaches `select {}`
and never returns. -/
inductive Retained where
  | failed (err : GoError) : Retained
  | blocked : Retained
deriving DecidableEq, Repr

/-- Arguments of `fallocate`, `fmt.Sprintf("-l %sM %s", size, dataFile)`. -/
def fallocateArgs (size dataFile : String) : String := "-l " ++ size ++ "M " ++ dataFile

/-- Arguments of the one-block `dd` that tests the command. -/
def ddTestArgs (dataFile : String) : String :=
  "if=/dev/zero of=" ++ dataFile ++ " bs=1b count=1 iflag=fullblock"

/-- Arguments of `nohup` for the background `dd` of the whole size. -/
def ddFillArgs (dataFile size : String) : String :=
  "dd if=/dev/zero of=" ++ dataFile ++ " bs=1M count=" ++ size
    ++ " iflag=fullblock >/dev/null 2>&1 &"

/-- Arguments of `nohup` for the holder process. -/
def retainArgs (program directory logFile : String) : String :=
  program ++ " --start --retain-handle --retain-nohup --directory " ++ directory
    ++ " >> " ++ logFile ++ " 2>&1 &"

/-- Arguments of `kill`, `fmt.Sprintf("-9 %s", strings.Join(pids, " "))`. -/
def killArgs (pids : List String) : String := "-9 " ++ " ".intercalate pids

/-- Arguments of `rm`, `fmt.Sprintf("-rf %s", fileName)`. -/
def rmArgs (fileName : String) : String := "-rf " ++ fileName

/-- Method `retainFileHandle`. -/
def retainFileHandle (that : FillDisk) (host : OsHost) (tr : List Event) : Retained :=
  let dataFilePath := host.pathJoin that.FillDiskDirectory fillDataFile
  match host.osOpen tr dataFilePath with
  | some err => Retained.failed (GoError.ArtifactUnreadable dataFilePath err)
  | none => Retained.blocked

/-- Method `startRetainProcess`: the answer of the channel and the call made. -/
def startRetainProcess (that : FillDisk) (host : OsHost) (directory : String)
    (tr : List Event) : Response × List Event :=
  let logFile := match host.GetLogFile with
    | .ok f => f
    | .error _ => "/dev/null"
  let args := retainArgs (host.pathJoin host.GetProgramPath host.fillDiskBin) directory logFile
  (that.Channel.Run tr none "nohup" args, [Event.Run Caller.startRetainProcess none "nohup" args])

/-- Method `fillDiskByFallocate`. -/
def fillDiskByFallocate (that : FillDisk) (size dataFile : String) (tr : List Event) :
    Response × List Event :=
  let args := fallocateArgs size dataFile
  let response := that.Channel.Run tr none "fallocate" args
  let evs := [Event.Run Caller.fillDiskByFallocate none "fallocate" args]
  if response.Success then (response, evs)
  else if stringsContains response.Err diskFillErrorMessage then
    (ReturnSuccess ("success because of " ++ diskFillErrorMessage), evs)
  else (ReturnFail ("execute fallocate err, " ++ response.Err), evs)

/-- Method `fillDiskByDD`. -/
def fillDiskByDD (that : FillDisk) (dataFile _directory size : String) (tr : List Event) :
    Response × List Event :=
  let args1 := ddTestArgs dataFile
  let response := that.Channel.Run tr none "dd" args1
  let ev1 := Event.Run Caller.fillDiskByDD none "dd" args1
  if ¬ response.Success then (response, [ev1])
  else
    let args2 := ddFillArgs dataFile size
    (that.Channel.Run (tr ++ [ev1]) none "nohup" args2,
      [ev1, Event.Run Caller.fillDiskByDD none "nohup" args2])

/-- Method `stopFill`: kill the filler and the holder, delete the file. -/
def stopFill (that : FillDisk) (host : OsHost) (directory : String) (tr : List Event) :
    Option GoError × List Event :=
  if directory = "" then (some GoError.MissingDirectory, [])
  else
    let pids := (that.Channel.GetPidsByProcessName tr fillDataFile none).1
    let look1 := Event.GetPidsByProcessName Caller.stopFill fillDataFile none
    let ev1 :=
      if pids ≠ none ∨ (pids.getD []).length ≥ 0 then
        [look1, Event.Run Caller.stopFill none "kill" (killArgs (pids.getD []))]
      else [look1]
    let ctx := some host.fillDiskBin
    let pids2 := (that.Channel.GetPidsByProcessName (tr ++ ev1) "retain-nohup" ctx).1
    let look2 := Event.GetPidsByProcessName Caller.stopFill "retain-nohup" ctx
    let ev2 :=
      if pids2 ≠ none ∨ (pids2.getD []).length ≥ 0 then
        [look2, Event.Run Caller.stopFill ctx "kill" (killArgs (pids2.getD []))]
      else [look2]
    let fileName := host.pathJoin directory fillDataFile
    if host.IsExist (tr ++ ev1 ++ ev2) fileName then
      let response := that.Channel.Run (tr ++ ev1 ++ ev2) ctx "rm" (rmArgs fileName)
      let ev3 := [Event.Run Caller.stopFill ctx "rm" (rmArgs fileName)]
      if ¬ response.Success then (some (GoError.CommandFailed (Errorf response.Err)), ev1 ++ ev2 ++ ev3)
      else (none, ev1 ++ ev2 ++ ev3)
    else (none, ev1 ++ ev2)

/-- Lines 119 to 127 of `startFill`, the fill strategy: `fallocate` when the
command is available, `dd` when there is no response or a failed one. -/
def fillStrategy (that : FillDisk) (dataFile directory size : String) (tr : List Event) :
    Response × List Event :=
  let ev0 := [Event.IsCommandAvailable Caller.startFill "fallocate"]
  let first : Option Response × List Event :=
    if that.Channel.IsCommandAvailable tr "fallocate" then
      let r := fillDiskByFallocate that size dataFile (tr ++ ev0)
      (some r.1, ev0 ++ r.2)
    else (none, ev0)
  match first.1 with
  | some response =>
    if ¬ response.Success then
      let r := fillDiskByDD that dataFile directory size (tr ++ first.2)
      (r.1, first.2 ++ r.2)
    else (response, first.2)
  | none =>
    let r := fillDiskByDD that dataFile directory size (tr ++ first.2)
    (r.1, first.2 ++ r.2)

/-- Method `startFill`: the error or the result, and the calls made. -/
def startFill (that : FillDisk) (host : OsHost) (directory size percent reserve : String)
    (retainHandle : Bool) (tr : List Event) : Except GoError String × List Event :=
  if directory = "" then (.error GoError.MissingDirectory, [])
  else if size = "" ∧ percent = "" ∧ reserve = "" then (.error GoError.MissingSizeSpec, [])
  else
    let dataFile := host.pathJoin directory fillDataFile
    match calculateFileSize host.toHost directory size percent reserve with
    | .error err => (.error (GoError.CalculateSize err), [])
    | .ok size =>
      let filled := fillStrategy that dataFile directory size tr
      if filled.1.Success then
        if retainHandle then
          let resp := startRetainProcess that host directory (tr ++ filled.2)
          (.ok filled.1.Result, filled.2 ++ resp.2)
        else (.ok filled.1.Result, filled.2)
      else
        let stopped := stopFill that host directory (tr ++ filled.2)
        (.error (GoError.CommandFailed (Errorf filled.1.Err)), filled.2 ++ stopped.2)

/-- Modelled from the spec: the helpers `bin.PrintErrAndExit` and
`bin.PrintOutputAndExit` of package `exec/bin` are not among the sources; the
spec has them print the message and end the process.  An invocation of `Exec`
ends by such an exit, by returning a response, or never (the holder loop). -/
inductive Outcome where
  | exitErr (err : GoError) : Outcome
  | exitOutput (result : String) : Outcome
  | returned (response : Response) : Outcome
  | blocked : Outcome
deriving DecidableEq, Repr

/-- Method `Exec`. -/
def Exec (that : FillDisk) (host : OsHost) (tr : List Event) : Outcome × List Event :=
  if that.FillDiskStart = that.FillDiskStop then (Outcome.exitErr GoError.InvalidMode, [])
  else if that.FillDiskStart then
    let retained : Option Retained :=
      if that.FillDiskRetainHandle ∧ that.FillDiskRetainNohup then
        some (retainFileHandle that host tr)
      else none
    match retained with
    | some (Retained.failed err) => (Outcome.exitErr err, [])
    | some Retained.blocked => (Outcome.blocked, [])
    | none =>
      let r := startFill that host that.FillDiskDirectory that.FillDiskSize that.FillDiskPercent
        that.ReserveDiskSize that.FillDiskRetainHandle tr
      match r.1 with
      | .error err => (Outcome.exitErr err, r.2)
      | .ok result => (Outcome.exitOutput result, r.2)
  else
    let r := stopFill that host that.FillDiskDirectory tr
    match r.1 with
    | some err => (Outcome.exitErr err, r.2)
    | none => (Outcome.returned (ReturnSuccess ""), r.2)

/-! ## Quantities named by the claims -/

/-- The variable `usedPercentage` of `calculateFileSize` (line 177). -/
def usedPercentage (stat : Statfs_t) : Float64 :=
  Float64.round2 (Float64.div (Float64.ofNat stat.usedBytes) (Float64.ofNat stat.allBytes))

/-- The variable `expectedPercentage` of `calculateFileSize` (line 178). -/
def expectedPercentage (p : ℤ) : Float64 :=
  Float64.round2 (Float64.div (Float64.ofInt p) (Float64.ofRat 100))

/-- The exact usage ratio `usedBytes / totalBytes`. -/
def usedRatio (stat : Statfs_t) : ℚ := (stat.usedBytes : ℚ) / (stat.allBytes : ℚ)

/-- The exact quotient `availableBytes / 1048576`, the available size in MB. -/
def exactAvailableMB (stat : Statfs_t) : ℚ := (stat.availableBytes : ℚ) / 1048576

/-- The exact value `(p/100 - k/100) * totalBytes / 1048576` of the size formula
of percent mode, for `k` hundredths used. -/
def exactSizeMB (stat : Statfs_t) (p k : ℤ) : ℚ :=
  ((p : ℚ) / 100 - (k : ℚ) / 100) * (stat.allBytes : ℚ) / 1048576

/-- A channel on which every command is available and succeeds, except that
`fallocate` fails with the given error text. -/
def channelFallocateFails (err : String) : OsChannel :=
  { IsCommandAvailable := fun _ _ => true,
    Run := fun _ _ script _ => if script = "fallocate" then ReturnFail err else ReturnSuccess "",
    GetPidsByProcessName := fun _ _ _ => (none, none) }

/-- A channel without `fallocate` on which every command fails with an error
text that names it, and every process lookup fails. -/
def channelAllFail : OsChannel :=
  { IsCommandAvailable := fun _ _ => false,
    Run := fun _ _ script _ => ReturnFail (script ++ ": permission denied"),
    GetPidsByProcessName := fun _ _ _ => (none, some "no such process") }

/-- A channel on which every command is available and succeeds. -/
def channelAllSucceed : OsChannel :=
  { IsCommandAvailable := fun _ _ => true,
    Run := fun _ _ _ _ => ReturnSuccess "",
    GetPidsByProcessName := fun _ _ _ => (some [], none) }

/-- A host with the given stat on which the artifact file exists or not, as
told, and cannot be opened. -/
def osHostOf (stat : Statfs_t) (fileExists : Bool) : OsHost :=
  { toHost := hostOf stat,
    pathJoin := fun dir file => dir ++ "/" ++ file,
    IsExist := fun _ _ => fileExists,
    osOpen := fun _ _ => some "no such file or directory",
    GetLogFile := .ok "/var/log/chaos.log",
    GetProgramPath := "/opt/chaosblade/bin",
    fillDiskBin := "chaos_filldisk" }

/-- A start request for `size` megabytes in `/data`. -/
def startRequest (channel : OsChannel) (size : String) (retainHandle retainNohup : Bool) :
    FillDisk :=
  { FillDiskDirectory := "/data", FillDiskSize := size, ReserveDiskSize := "",
    FillDiskPercent := "", FillDiskStart := true, FillDiskStop := false,
    FillDiskRetainHandle := retainHandle, FillDiskRetainNohup := retainNohup,
    Channel := channel }

/-- The calls of lines 231 to 240 of `stopFill`: two process lookups, each
followed by a kill. -/
def killEvents (that : FillDisk) (host : OsHost) (tr : List Event) : List Event :=
  let kill1 := [Event.GetPidsByProcessName Caller.stopFill fillDataFile none,
    Event.Run Caller.stopFill none "kill"
      (killArgs ((that.Channel.GetPidsByProcessName tr fillDataFile none).1.getD []))]
  kill1 ++ [Event.GetPidsByProcessName Caller.stopFill "retain-nohup" (some host.fillDiskBin),
    Event.Run Caller.stopFill (some host.fillDiskBin) "kill"
      (killArgs ((that.Channel.GetPidsByProcessName (tr ++ kill1) "retain-nohup"
        (some host.fillDiskBin)).1.getD []))]

/-! ## Part 1 : facts about rounding -/

/-- With enough fuel `log2Fuel` brackets `n` between two powers of two. -/
theorem log2Fuel_spec : ∀ (fuel n : ℕ), n ≤ fuel → 0 < n →
    2 ^ log2Fuel fuel n ≤ n ∧ n < 2 ^ (log2Fuel fuel n + 1)
  | 0, n, h, hn => by omega
  | fuel + 1, n, h, hn => by
    unfold log2Fuel
    split
    · constructor <;> simp <;> omega
    · have h2 : 0 < n / 2 := Nat.div_pos (by omega) (by omega)
      have ih := log2Fuel_spec fuel (n / 2) (by omega) h2
      obtain ⟨ih1, ih2⟩ := ih
      constructor
      · rw [pow_succ]; omega
      · rw [pow_succ]; omega

/-- The logarithm `natLog2 n` brackets a positive `n` between two powers of two. -/
theorem natLog2_spec (n : ℕ) (hn : 0 < n) :
    2 ^ natLog2 n ≤ n ∧ n < 2 ^ (natLog2 n + 1) :=
  log2Fuel_spec n n le_rfl hn

/-- The logarithm `ilog2 q` brackets the magnitude of a non-zero `q`. -/
theorem ilog2_spec (q : ℚ) (hq : q ≠ 0) :
    (2 : ℚ) ^ ilog2 q ≤ |q| ∧ |q| < (2 : ℚ) ^ (ilog2 q + 1) := by
  have hnum : 0 < q.num.natAbs := Int.natAbs_pos.mpr (Rat.num_ne_zero.mpr hq)
  have hden : 0 < q.den := q.den_pos
  obtain ⟨a1, a2⟩ := natLog2_spec _ hnum
  obtain ⟨b1, b2⟩ := natLog2_spec _ hden
  have habs : |q| = (q.num.natAbs : ℚ) / (q.den : ℚ) := by
    conv_lhs => rw [← Rat.num_div_den q]
    rw [abs_div, Nat.abs_cast]
    rw [Nat.cast_natAbs, Int.cast_abs]
  have a1q : (2 : ℚ) ^ (natLog2 q.num.natAbs) ≤ (q.num.natAbs : ℚ) := by exact_mod_cast a1
  have a2q : (q.num.natAbs : ℚ) < (2 : ℚ) ^ (natLog2 q.num.natAbs + 1) := by exact_mod_cast a2
  have b1q : (2 : ℚ) ^ (natLog2 q.den) ≤ (q.den : ℚ) := by exact_mod_cast b1
  have b2q : (q.den : ℚ) < (2 : ℚ) ^ (natLog2 q.den + 1) := by exact_mod_cast b2
  have hdq : (0 : ℚ) < (q.den : ℚ) := by exact_mod_cast hden
  have two : (2 : ℚ) ≠ 0 := by norm_num
  unfold ilog2
  simp only
  split
  · rename_i h
    refine ⟨h, ?_⟩
    rw [habs, div_lt_iff₀ hdq]
    have : (2 : ℚ) ^ ((natLog2 q.num.natAbs : ℤ) - (natLog2 q.den : ℤ) + 1)
        = 2 ^ (natLog2 q.num.natAbs + 1) / 2 ^ (natLog2 q.den) := by
      rw [show (natLog2 q.num.natAbs : ℤ) - (natLog2 q.den : ℤ) + 1
        = ((natLog2 q.num.natAbs + 1 : ℕ) : ℤ) - ((natLog2 q.den : ℕ) : ℤ) by push_cast; ring]
      rw [zpow_sub₀ two, zpow_natCast, zpow_natCast]
    rw [this, div_mul_eq_mul_div, lt_div_iff₀ (by positivity)]
    calc (q.num.natAbs : ℚ) * 2 ^ natLog2 q.den
        ≤ (q.num.natAbs : ℚ) * q.den := by gcongr
      _ < 2 ^ (natLog2 q.num.natAbs + 1) * q.den := by gcongr
  · rename_i h
    push_neg at h
    refine ⟨?_, by simpa using h⟩
    rw [habs, le_div_iff₀ hdq]
    have : (2 : ℚ) ^ ((natLog2 q.num.natAbs : ℤ) - (natLog2 q.den : ℤ) - 1)
        = 2 ^ (natLog2 q.num.natAbs) / 2 ^ (natLog2 q.den + 1) := by
      rw [show (natLog2 q.num.natAbs : ℤ) - (natLog2 q.den : ℤ) - 1
        = ((natLog2 q.num.natAbs : ℕ) : ℤ) - ((natLog2 q.den + 1 : ℕ) : ℤ) by push_cast; ring]
      rw [zpow_sub₀ two, zpow_natCast, zpow_natCast]
    rw [this, div_mul_eq_mul_div, div_le_iff₀ (by positivity)]
    calc (2 : ℚ) ^ natLog2 q.num.natAbs * q.den
        ≤ (q.num.natAbs : ℚ) * q.den := by gcongr
      _ ≤ (q.num.natAbs : ℚ) * 2 ^ (natLog2 q.den + 1) := by gcongr

/-- Rounding yields the floor or its successor. -/
theorem roundHalfEven_cases (q : ℚ) :
    roundHalfEven q = ⌊q⌋ ∨ roundHalfEven q = ⌊q⌋ + 1 := by
  unfold roundHalfEven
  simp only
  split_ifs <;> simp

/-- Rounding moves a value by at most one half. -/
theorem roundHalfEven_sub_le (q : ℚ) : |(roundHalfEven q : ℚ) - q| ≤ 1 / 2 := by
  have h1 := Int.floor_le q
  have h2 := Int.lt_floor_add_one q
  unfold roundHalfEven
  simp only
  rw [abs_le]
  split_ifs with ha hb hc <;> push_cast <;> constructor <;> linarith

/-- Integers are fixed by rounding. -/
theorem roundHalfEven_intCast (n : ℤ) : roundHalfEven (n : ℚ) = n := by
  unfold roundHalfEven
  simp

/-- Rounding to the nearest integer is monotone. -/
theorem roundHalfEven_mono {a b : ℚ} (h : a ≤ b) : roundHalfEven a ≤ roundHalfEven b := by
  have hf : ⌊a⌋ ≤ ⌊b⌋ := Int.floor_le_floor h
  rcases hf.lt_or_eq with hlt | heq
  · rcases roundHalfEven_cases a with ha | ha <;> rcases roundHalfEven_cases b with hb | hb <;>
      omega
  · unfold roundHalfEven
    simp only
    rw [← heq]
    split_ifs <;> first | omega | (exfalso; linarith)

namespace Float64

/-- In the normal range the unit in the last place is `2^(ilog2 q - 52)`. -/
theorem ulpExp_normal (q : ℚ) (h1 : (2 : ℚ) ^ (-1022 : ℤ) ≤ |q|) :
    ulpExp q = ilog2 q - 52 := by
  have hq : q ≠ 0 := by
    intro h
    rw [h, abs_zero] at h1
    have : (0 : ℚ) < 2 ^ (-1022 : ℤ) := by positivity
    linarith
  obtain ⟨-, s2⟩ := ilog2_spec q hq
  have hlt : (2 : ℚ) ^ (-1022 : ℤ) < 2 ^ (ilog2 q + 1) := lt_of_le_of_lt h1 s2
  have := (zpow_lt_zpow_iff_right₀ (by norm_num : (1 : ℚ) < 2)).mp hlt
  unfold ulpExp
  rw [max_eq_left]
  omega

/-- In the normal range rounding yields a finite value within half a unit in
the last place: a relative error of at most `2^-53`. -/
theorem ofRat_normal (q : ℚ) (h1 : (2 : ℚ) ^ (-1022 : ℤ) ≤ |q|) (h2 : |q| < 2 ^ (1023 : ℤ)) :
    ∃ v, ofRat q = fin v ∧ |v - q| ≤ |q| / 2 ^ 53 := by
  have hq : q ≠ 0 := by
    intro h
    rw [h, abs_zero] at h1
    have : (0 : ℚ) < 2 ^ (-1022 : ℤ) := by positivity
    linarith
  obtain ⟨s1, -⟩ := ilog2_spec q hq
  have he := ulpExp_normal q h1
  have hpos : (0 : ℚ) < 2 ^ (ilog2 q - 52) := by positivity
  have hrnd := roundHalfEven_sub_le (q / 2 ^ (ilog2 q - 52))
  have hulp : (2 : ℚ) ^ (ilog2 q - 52) = 2 ^ ilog2 q / 2 ^ 52 := by
    rw [zpow_sub₀ (by norm_num : (2 : ℚ) ≠ 0)]; norm_num
  have herr : |(roundHalfEven (q / 2 ^ (ilog2 q - 52)) : ℚ) * 2 ^ (ilog2 q - 52) - q|
      ≤ |q| / 2 ^ 53 := by
    have e1 : (roundHalfEven (q / 2 ^ (ilog2 q - 52)) : ℚ) * 2 ^ (ilog2 q - 52) - q
        = ((roundHalfEven (q / 2 ^ (ilog2 q - 52)) : ℚ) - q / 2 ^ (ilog2 q - 52))
          * 2 ^ (ilog2 q - 52) := by
      field_simp
    rw [e1, abs_mul, abs_of_pos hpos]
    calc |(roundHalfEven (q / 2 ^ (ilog2 q - 52)) : ℚ) - q / 2 ^ (ilog2 q - 52)|
          * 2 ^ (ilog2 q - 52)
        ≤ 1 / 2 * 2 ^ (ilog2 q - 52) := by gcongr
      _ = 2 ^ ilog2 q / 2 ^ 53 := by rw [hulp]; ring
      _ ≤ |q| / 2 ^ 53 := by gcongr
  refine ⟨(roundHalfEven (q / 2 ^ (ilog2 q - 52)) : ℚ) * 2 ^ (ilog2 q - 52), ?_, herr⟩
  unfold ofRat
  simp only [hq, if_false, he]
  rw [if_neg]
  push_neg
  have habs : |(roundHalfEven (q / 2 ^ (ilog2 q - 52)) : ℚ) * 2 ^ (ilog2 q - 52)|
      ≤ |q| + |q| / 2 ^ 53 := by
    have := abs_sub_abs_le_abs_sub
      ((roundHalfEven (q / 2 ^ (ilog2 q - 52)) : ℚ) * 2 ^ (ilog2 q - 52)) q
    linarith
  have e : (2 : ℚ) ^ (1024 : ℕ) = 2 ^ (1023 : ℤ) + 2 ^ (1023 : ℤ) := by
    rw [← zpow_natCast, show ((1024 : ℕ) : ℤ) = 1023 + 1 from rfl,
      zpow_add_one₀ (by norm_num : (2 : ℚ) ≠ 0)]
    ring
  have : |q| / 2 ^ 53 ≤ |q| := div_le_self (abs_nonneg q) (by norm_num)
  rw [e]
  linarith

/-- Rounding keeps the sign of a non-negative value. -/
theorem ofRat_nonneg (q : ℚ) (hq : 0 ≤ q) :
    ofRat q = posInf ∨ ∃ v, 0 ≤ v ∧ ofRat q = fin v := by
  unfold ofRat
  split
  · exact Or.inr ⟨0, le_rfl, rfl⟩
  · rename_i h0
    have hpos : 0 < q := lt_of_le_of_ne hq (Ne.symm h0)
    simp only
    split
    · left; simp [hpos]
    · right
      refine ⟨_, ?_, rfl⟩
      have hm : (0 : ℤ) ≤ roundHalfEven (q / 2 ^ ulpExp q) := by
        have := roundHalfEven_mono (show (0 : ℚ) ≤ q / 2 ^ ulpExp q by positivity)
        rwa [show ((0 : ℚ)) = ((0 : ℤ) : ℚ) by norm_num, roundHalfEven_intCast] at this
      have : (0 : ℚ) ≤ (roundHalfEven (q / 2 ^ ulpExp q) : ℚ) := by exact_mod_cast hm
      positivity

/-- Rounding keeps the sign of a non-positive value. -/
theorem ofRat_nonpos (q : ℚ) (hq : q ≤ 0) :
    ofRat q = negInf ∨ ∃ v, v ≤ 0 ∧ ofRat q = fin v := by
  unfold ofRat
  split
  · exact Or.inr ⟨0, le_rfl, rfl⟩
  · rename_i h0
    have hneg : ¬ 0 < q := not_lt.mpr hq
    simp only
    split
    · left; simp [hneg]
    · right
      refine ⟨_, ?_, rfl⟩
      have hm : roundHalfEven (q / 2 ^ ulpExp q) ≤ (0 : ℤ) := by
        have hle : q / 2 ^ ulpExp q ≤ (0 : ℚ) :=
          div_nonpos_of_nonpos_of_nonneg hq (by positivity)
        have := roundHalfEven_mono hle
        rwa [show ((0 : ℚ)) = ((0 : ℤ) : ℚ) by norm_num, roundHalfEven_intCast] at this
      have h1 : (roundHalfEven (q / 2 ^ ulpExp q) : ℚ) ≤ 0 := by exact_mod_cast hm
      exact mul_nonpos_of_nonpos_of_nonneg h1 (by positivity)

/-- Value of `ofRat` in the normal range, without the overflow test. -/
theorem ofRat_normal_eq (q : ℚ) (h1 : (2 : ℚ) ^ (-1022 : ℤ) ≤ |q|) (h2 : |q| < 2 ^ (1023 : ℤ)) :
    ofRat q = fin ((roundHalfEven (q / 2 ^ (ilog2 q - 52)) : ℚ) * 2 ^ (ilog2 q - 52)) := by
  obtain ⟨v, hv, -⟩ := ofRat_normal q h1 h2
  have hq : q ≠ 0 := by
    intro h
    rw [h, abs_zero] at h1
    have : (0 : ℚ) < 2 ^ (-1022 : ℤ) := by positivity
    linarith
  have he := ulpExp_normal q h1
  rw [hv]
  unfold ofRat at hv
  simp only [hq, if_false, he] at hv
  split at hv
  · split at hv <;> cases hv
  · rw [← hv]

/-- Rounding is monotone on positive values of the normal range. -/
theorem ofRat_mono (a b : ℚ) (ha : (2 : ℚ) ^ (-1022 : ℤ) ≤ a) (hab : a ≤ b)
    (hb : b < 2 ^ (1023 : ℤ)) :
    ∃ va vb, ofRat a = fin va ∧ ofRat b = fin vb ∧ va ≤ vb := by
  have hmin : (0 : ℚ) < 2 ^ (-1022 : ℤ) := by positivity
  have ha0 : 0 < a := lt_of_lt_of_le hmin ha
  have hb0 : 0 < b := lt_of_lt_of_le ha0 hab
  have haa : |a| = a := abs_of_pos ha0
  have hbb : |b| = b := abs_of_pos hb0
  have ea := ofRat_normal_eq a (by rw [haa]; exact ha) (by rw [haa]; exact lt_of_le_of_lt hab hb)
  have eb := ofRat_normal_eq b (by rw [hbb]; exact le_trans ha hab) (by rw [hbb]; exact hb)
  refine ⟨_, _, ea, eb, ?_⟩
  obtain ⟨sa1, sa2⟩ := ilog2_spec a ha0.ne'
  obtain ⟨sb1, sb2⟩ := ilog2_spec b hb0.ne'
  rw [haa] at sa1 sa2
  rw [hbb] at sb1 sb2
  have two : (1 : ℚ) < 2 := by norm_num
  have hil : ilog2 a ≤ ilog2 b := by
    have : (2 : ℚ) ^ ilog2 a < 2 ^ (ilog2 b + 1) := by linarith
    have := (zpow_lt_zpow_iff_right₀ two).mp this
    omega
  rcases hil.lt_or_eq with hlt | heq
  · -- different binades: the power of two between them separates the results
    have hpa : (0 : ℚ) < 2 ^ (ilog2 a - 52) := by positivity
    have hpb : (0 : ℚ) < 2 ^ (ilog2 b - 52) := by positivity
    have h53 : a / 2 ^ (ilog2 a - 52) ≤ ((2 ^ 53 : ℤ) : ℚ) := by
      rw [div_le_iff₀ hpa]
      have : (((2 : ℤ) ^ 53 : ℤ) : ℚ) * 2 ^ (ilog2 a - 52) = 2 ^ (ilog2 a + 1) := by
        rw [show ilog2 a + 1 = 53 + (ilog2 a - 52) by ring, zpow_add₀ (by norm_num : (2 : ℚ) ≠ 0)]
        norm_num
      rw [this]; exact sa2.le
    have h52 : ((2 ^ 52 : ℤ) : ℚ) ≤ b / 2 ^ (ilog2 b - 52) := by
      rw [le_div_iff₀ hpb]
      have : (((2 : ℤ) ^ 52 : ℤ) : ℚ) * 2 ^ (ilog2 b - 52) = 2 ^ (ilog2 b) := by
        rw [show ilog2 b = 52 + (ilog2 b - 52) by ring, zpow_add₀ (by norm_num : (2 : ℚ) ≠ 0)]
        norm_num
      rw [this]; exact sb1
    have r53 := roundHalfEven_mono h53
    have r52 := roundHalfEven_mono h52
    rw [roundHalfEven_intCast] at r53 r52
    have r53q : (roundHalfEven (a / 2 ^ (ilog2 a - 52)) : ℚ) ≤ 2 ^ 53 := by exact_mod_cast r53
    have r52q : (2 : ℚ) ^ 52 ≤ (roundHalfEven (b / 2 ^ (ilog2 b - 52)) : ℚ) := by
      exact_mod_cast r52
    calc (roundHalfEven (a / 2 ^ (ilog2 a - 52)) : ℚ) * 2 ^ (ilog2 a - 52)
        ≤ 2 ^ 53 * 2 ^ (ilog2 a - 52) := by gcongr
      _ = 2 ^ (ilog2 a + 1) := by
          rw [show ilog2 a + 1 = 53 + (ilog2 a - 52) by ring,
            zpow_add₀ (by norm_num : (2 : ℚ) ≠ 0)]
          norm_num
      _ ≤ 2 ^ (ilog2 b) := zpow_le_zpow_right₀ two.le (by omega)
      _ = 2 ^ 52 * 2 ^ (ilog2 b - 52) := by
          rw [show ilog2 b = 52 + (ilog2 b - 52) by ring, zpow_add₀ (by norm_num : (2 : ℚ) ≠ 0)]
          norm_num
      _ ≤ (roundHalfEven (b / 2 ^ (ilog2 b - 52)) : ℚ) * 2 ^ (ilog2 b - 52) := by gcongr
  · rw [heq]
    have hpb : (0 : ℚ) < 2 ^ (ilog2 b - 52) := by positivity
    have hdiv : a / 2 ^ (ilog2 b - 52) ≤ b / 2 ^ (ilog2 b - 52) := by gcongr
    have hm := roundHalfEven_mono hdiv
    have hmq : (roundHalfEven (a / 2 ^ (ilog2 b - 52)) : ℚ)
        ≤ (roundHalfEven (b / 2 ^ (ilog2 b - 52)) : ℚ) := by exact_mod_cast hm
    gcongr

/-- Two-sided form of the relative error bound, for the magnitudes that occur
in the size calculator. -/
theorem ofRat_rel (q : ℚ) (h1 : (2 : ℚ) ^ (-70 : ℤ) ≤ q) (h2 : q ≤ 2 ^ (80 : ℤ)) :
    ∃ v, ofRat q = fin v ∧ q - q / 2 ^ 53 ≤ v ∧ v ≤ q + q / 2 ^ 53 := by
  have hq0 : 0 < q := lt_of_lt_of_le (by positivity) h1
  have hqq : |q| = q := abs_of_pos hq0
  have two : (1 : ℚ) ≤ 2 := by norm_num
  obtain ⟨v, hv, herr⟩ := ofRat_normal q
    (by rw [hqq]; exact le_trans (zpow_le_zpow_right₀ two (by norm_num)) h1)
    (by rw [hqq]; exact lt_of_le_of_lt h2 (zpow_lt_zpow_right₀ (by norm_num) (by norm_num)))
  rw [hqq, abs_le] at herr
  exact ⟨v, hv, by linarith, by linarith⟩

/-- The same bound with zero allowed. -/
theorem ofRat_rel0 (q : ℚ) (h1 : q = 0 ∨ (2 : ℚ) ^ (-70 : ℤ) ≤ q) (h2 : q ≤ 2 ^ (80 : ℤ)) :
    ∃ v, ofRat q = fin v ∧ q - q / 2 ^ 53 ≤ v ∧ v ≤ q + q / 2 ^ 53 := by
  rcases h1 with h | h
  · subst h
    exact ⟨0, by simp [ofRat], by norm_num, by norm_num⟩
  · exact ofRat_rel q h h2

end Float64

open Float64

namespace Float64

/-- A converted value fits 64 bits. -/
theorem uint64_lt (z : ℤ) : uint64 z < 2 ^ 64 := by
  unfold uint64
  have h1 : 0 ≤ z % 2 ^ 64 := Int.emod_nonneg _ (by norm_num)
  have h2 : z % 2 ^ 64 < 2 ^ 64 := Int.emod_lt_of_pos _ (by norm_num)
  omega

/-- The total fits 64 bits. -/
theorem allBytes_lt (stat : Statfs_t) : stat.allBytes < 2 ^ 64 := by
  unfold Statfs_t.allBytes
  exact Nat.mod_lt _ (by norm_num)

/-- The used bytes fit 64 bits. -/
theorem usedBytes_lt (stat : Statfs_t) : stat.usedBytes < 2 ^ 64 := uint64_lt _

/-- Conversion of an unsigned 64-bit integer is finite, with relative error at
most `2^-53`. -/
theorem ofNat_rel (n : ℕ) (hn : n < 2 ^ 64) :
    ∃ v, ofNat n = fin v ∧ (n : ℚ) - n / 2 ^ 53 ≤ v ∧ v ≤ n + n / 2 ^ 53 := by
  unfold ofNat
  apply ofRat_rel0
  · rcases Nat.eq_zero_or_pos n with h | h
    · left; simp [h]
    · right
      have : (1 : ℚ) ≤ n := by exact_mod_cast h
      exact le_trans (zpow_le_one_of_nonpos₀ (by norm_num) (by norm_num)) this
  · have : (n : ℚ) < 2 ^ 64 := by exact_mod_cast hn
    have h2 : (2 : ℚ) ^ (64 : ℕ) ≤ 2 ^ (80 : ℤ) := by norm_num
    linarith

/-- Quotient of two rounded values against the exact quotient. -/
theorem div_rel (z t a b : ℚ) (hz : 0 ≤ z) (ht : 0 < t)
    (ha1 : z - z / 2 ^ 53 ≤ a) (ha2 : a ≤ z + z / 2 ^ 53)
    (hb1 : t - t / 2 ^ 53 ≤ b) (hb2 : b ≤ t + t / 2 ^ 53) :
    0 < b ∧ z / t - 3 * (z / t) / 2 ^ 53 ≤ a / b ∧ a / b ≤ z / t + 3 * (z / t) / 2 ^ 53 := by
  have hb : 0 < b := by
    have : t / 2 ^ 53 < t := div_lt_self ht (by norm_num)
    linarith
  have hu : 0 ≤ z / t := div_nonneg hz ht.le
  have hut : z / t * t = z := div_mul_cancel₀ z ht.ne'
  have h1 : z / t * (t - t / 2 ^ 53) ≤ z / t * b := mul_le_mul_of_nonneg_left hb1 hu
  have h2 : z / t * b ≤ z / t * (t + t / 2 ^ 53) := mul_le_mul_of_nonneg_left hb2 hu
  refine ⟨hb, ?_, ?_⟩
  · rw [le_div_iff₀ hb]
    have e : (z / t - 3 * (z / t) / 2 ^ 53) * b = (1 - 3 / 2 ^ 53) * (z / t * b) := by ring
    have e2 : z / t * (t + t / 2 ^ 53) = z / t * t * (1 + 1 / 2 ^ 53) := by ring
    rw [e]
    rw [e2, hut] at h2
    nlinarith
  · rw [div_le_iff₀ hb]
    have e : (z / t + 3 * (z / t) / 2 ^ 53) * b = (1 + 3 / 2 ^ 53) * (z / t * b) := by ring
    have e1 : z / t * (t - t / 2 ^ 53) = z / t * t * (1 - 1 / 2 ^ 53) := by ring
    rw [e]
    rw [e1, hut] at h1
    nlinarith

end Float64

namespace Float64

/-- Rounding keeps non-negative values non-negative. -/
theorem roundHalfEven_nonneg {q : ℚ} (hq : 0 ≤ q) : 0 ≤ roundHalfEven q := by
  have := roundHalfEven_mono hq
  rwa [show ((0 : ℚ)) = ((0 : ℤ) : ℚ) by norm_num, roundHalfEven_intCast] at this

/-- Rounding keeps non-positive values non-positive. -/
theorem roundHalfEven_nonpos {q : ℚ} (hq : q ≤ 0) : roundHalfEven q ≤ 0 := by
  have := roundHalfEven_mono hq
  rwa [show ((0 : ℚ)) = ((0 : ℤ) : ℚ) by norm_num, roundHalfEven_intCast] at this

/-- The float quotient `float64(usedBytes) / float64(allBytes)` is finite and
within a relative error of `5 * 2^-53` of the exact ratio. -/
theorem usedQuotient_spec (stat : Statfs_t) (hT : 0 < stat.allBytes) :
    ∃ x : ℚ, div (ofNat stat.usedBytes) (ofNat stat.allBytes) = fin x ∧ 0 ≤ x ∧
      usedRatio stat - 5 * usedRatio stat / 2 ^ 53 ≤ x ∧
      x ≤ usedRatio stat + 5 * usedRatio stat / 2 ^ 53 := by
  obtain ⟨a, ha, ha1, ha2⟩ := ofNat_rel stat.usedBytes (usedBytes_lt stat)
  obtain ⟨b, hb, hb1, hb2⟩ := ofNat_rel stat.allBytes (allBytes_lt stat)
  have ht : (0 : ℚ) < stat.allBytes := by exact_mod_cast hT
  have ht1 : (1 : ℚ) ≤ stat.allBytes := by exact_mod_cast hT
  have htl : (stat.allBytes : ℚ) < 2 ^ 64 := by exact_mod_cast allBytes_lt stat
  have hzl : (stat.usedBytes : ℚ) < 2 ^ 64 := by exact_mod_cast usedBytes_lt stat
  have hz : (0 : ℚ) ≤ stat.usedBytes := Nat.cast_nonneg _
  obtain ⟨hb0, hq1, hq2⟩ := div_rel _ _ a b hz ht ha1 ha2 hb1 hb2
  have hu0 : 0 ≤ usedRatio stat := div_nonneg hz ht.le
  change usedRatio stat - 3 * usedRatio stat / 2 ^ 53 ≤ a / b at hq1
  change a / b ≤ usedRatio stat + 3 * usedRatio stat / 2 ^ 53 at hq2
  have hule : usedRatio stat ≤ 2 ^ 64 := by
    unfold usedRatio
    rw [div_le_iff₀ ht]
    nlinarith
  have hrange : a / b = 0 ∨ (2 : ℚ) ^ (-70 : ℤ) ≤ a / b := by
    rcases Nat.eq_zero_or_pos stat.usedBytes with h0 | hpos
    · left
      have : a = 0 := by
        rw [h0] at ha1 ha2
        simp at ha1 ha2
        linarith
      simp [this]
    · right
      have hz1 : (1 : ℚ) ≤ stat.usedBytes := by exact_mod_cast hpos
      have : (1 : ℚ) / 2 ^ 64 ≤ usedRatio stat := by
        unfold usedRatio
        rw [le_div_iff₀ ht, div_mul_eq_mul_div, div_le_iff₀ (by norm_num)]
        linarith
      have h70 : (2 : ℚ) ^ (-70 : ℤ) = 1 / 2 ^ 70 := by
        rw [zpow_neg]; norm_num
      rw [h70]
      have e1 : (1 : ℚ) / 2 ^ 70 ≤ 1 / 2 ^ 64 - 3 * (1 / 2 ^ 64) / 2 ^ 53 := by norm_num
      linarith
  have hupper : a / b ≤ 2 ^ (80 : ℤ) := by
    have : (2 : ℚ) ^ (80 : ℤ) = 2 ^ 80 := by norm_num
    rw [this]
    have e1 : (2 : ℚ) ^ 64 + 3 * 2 ^ 64 / 2 ^ 53 ≤ 2 ^ 80 := by norm_num
    linarith
  obtain ⟨x, hx, hx1, hx2⟩ := ofRat_rel0 (a / b) hrange hupper
  have hab0 : 0 ≤ a / b := by
    rcases hrange with h | h
    · rw [h]
    · exact le_trans (by positivity) h
  refine ⟨x, ?_, ?_, ?_, ?_⟩
  · rw [ha, hb]
    simp only [div, hb0.ne', if_false]
    exact hx
  · have : a / b / 2 ^ 53 ≤ a / b := div_le_self hab0 (by norm_num)
    linarith
  · linarith
  · linarith

/-- The value of `usedPercentage`: the quotient rounded to an integer number of
hundredths, read back as a float. -/
theorem usedPercentage_spec (stat : Statfs_t) (hT : 0 < stat.allBytes) :
    ∃ x : ℚ, 0 ≤ x ∧
      usedRatio stat - 5 * usedRatio stat / 2 ^ 53 ≤ x ∧
      x ≤ usedRatio stat + 5 * usedRatio stat / 2 ^ 53 ∧
      0 ≤ roundHalfEven (x * 100) ∧
      usedPercentage stat = ofRat ((roundHalfEven (x * 100) : ℚ) / 100) := by
  obtain ⟨x, hx, hx0, hx1, hx2⟩ := usedQuotient_spec stat hT
  refine ⟨x, hx0, hx1, hx2, roundHalfEven_nonneg (by positivity), ?_⟩
  unfold usedPercentage
  rw [hx]
  rfl

end Float64

/-- A value above `n - 1/2` rounds to at least `n`. -/
theorem le_roundHalfEven {q : ℚ} {n : ℤ} (h : (n : ℚ) - 1 / 2 < q) : n ≤ roundHalfEven q := by
  have h1 := roundHalfEven_sub_le q
  rw [abs_le] at h1
  have : ((n - 1 : ℤ) : ℚ) < (roundHalfEven q : ℚ) := by push_cast; linarith
  have := Int.cast_lt.mp this
  omega

/-- A value below `n + 1/2` rounds to at most `n`. -/
theorem roundHalfEven_le {q : ℚ} {n : ℤ} (h : q < (n : ℚ) + 1 / 2) : roundHalfEven q ≤ n := by
  have h1 := roundHalfEven_sub_le q
  rw [abs_le] at h1
  have : (roundHalfEven q : ℚ) < ((n + 1 : ℤ) : ℚ) := by push_cast; linarith
  have := Int.cast_lt.mp this
  omega

namespace Float64

/-- A value `m * 2^e` with fewer than 54 significant bits and an exponent in
range is a binary64 number: rounding leaves it unchanged. -/
theorem ofRat_exact (m e : ℤ) (hm : |m| < 2 ^ 53) (he1 : -1074 ≤ e) (he2 : e ≤ 970) :
    ofRat ((m : ℚ) * 2 ^ e) = fin ((m : ℚ) * 2 ^ e) := by
  by_cases hm0 : m = 0
  · subst hm0; simp [ofRat]
  have hpe : (0 : ℚ) < 2 ^ e := by positivity
  have hq : (m : ℚ) * 2 ^ e ≠ 0 := mul_ne_zero (by exact_mod_cast hm0) hpe.ne'
  obtain ⟨s1, s2⟩ := ilog2_spec _ hq
  have habs : |(m : ℚ) * 2 ^ e| = |(m : ℚ)| * 2 ^ e := by rw [abs_mul, abs_of_pos hpe]
  have hmq : |(m : ℚ)| < 2 ^ 53 := by
    have : ((|m| : ℤ) : ℚ) < ((2 ^ 53 : ℤ) : ℚ) := Int.cast_lt.mpr hm
    simpa using this
  have two : (1 : ℚ) < 2 := by norm_num
  have hil : ilog2 ((m : ℚ) * 2 ^ e) - 52 ≤ e := by
    have h1 : (2 : ℚ) ^ ilog2 ((m : ℚ) * 2 ^ e) < 2 ^ (53 + e) := by
      calc (2 : ℚ) ^ ilog2 ((m : ℚ) * 2 ^ e) ≤ |(m : ℚ)| * 2 ^ e := by rw [← habs]; exact s1
        _ < 2 ^ 53 * 2 ^ e := by gcongr
        _ = 2 ^ (53 + e) := by
            rw [zpow_add₀ (by norm_num : (2 : ℚ) ≠ 0)]; norm_num
    have := (zpow_lt_zpow_iff_right₀ two).mp h1
    omega
  have hulp : ulpExp ((m : ℚ) * 2 ^ e) ≤ e := by
    unfold ulpExp
    exact max_le hil he1
  obtain ⟨n, hn⟩ : ∃ n : ℕ, e - ulpExp ((m : ℚ) * 2 ^ e) = n :=
    ⟨(e - ulpExp ((m : ℚ) * 2 ^ e)).toNat, by omega⟩
  have hdiv : (m : ℚ) * 2 ^ e / 2 ^ ulpExp ((m : ℚ) * 2 ^ e) = ((m * 2 ^ n : ℤ) : ℚ) := by
    rw [mul_div_assoc, ← zpow_sub₀ (by norm_num : (2 : ℚ) ≠ 0), hn]
    push_cast
    rw [zpow_natCast]
  have hval : (roundHalfEven ((m : ℚ) * 2 ^ e / 2 ^ ulpExp ((m : ℚ) * 2 ^ e)) : ℚ)
      * 2 ^ ulpExp ((m : ℚ) * 2 ^ e) = (m : ℚ) * 2 ^ e := by
    rw [hdiv, roundHalfEven_intCast, ← hdiv]
    field_simp
  unfold ofRat
  simp only [hq, if_false]
  rw [hval, if_neg]
  push_neg
  rw [habs]
  calc |(m : ℚ)| * 2 ^ e < 2 ^ 53 * 2 ^ e := by gcongr
    _ ≤ 2 ^ 53 * 2 ^ (970 : ℤ) :=
        mul_le_mul_of_nonneg_left (zpow_le_zpow_right₀ two.le he2) (by positivity)
    _ ≤ 2 ^ (1024 : ℕ) := by
        rw [← zpow_natCast, ← zpow_natCast, ← zpow_add₀ (by norm_num : (2 : ℚ) ≠ 0)]
        exact zpow_le_zpow_right₀ two.le (by norm_num)

/-- Integers below `2^53` in magnitude convert exactly. -/
theorem ofRat_intCast (m : ℤ) (hm : |m| < 2 ^ 53) : ofRat (m : ℚ) = fin (m : ℚ) := by
  have := ofRat_exact m 0 hm (by norm_num) (by norm_num)
  simpa using this

/-- The variable `expectedPercentage` for a percentage of at most 15 digits: the
float nearest to `p/100`. -/
theorem expectedPercentage_eq (p : ℤ) (h1 : 1 ≤ p) (h2 : p ≤ 2 ^ 50) :
    expectedPercentage p = ofRat ((p : ℚ) / 100) := by
  have hp1 : (1 : ℚ) ≤ p := by exact_mod_cast h1
  have hp2 : (p : ℚ) ≤ 2 ^ 50 := by exact_mod_cast h2
  have hpi : ofInt p = fin (p : ℚ) := by
    unfold ofInt
    apply ofRat_intCast
    rw [abs_of_nonneg (by omega)]
    have : (2 : ℤ) ^ 50 < 2 ^ 53 := by norm_num
    omega
  have h100 : ofRat 100 = fin 100 := by
    have := ofRat_intCast 100 (by norm_num)
    simpa using this
  obtain ⟨y, hy, hy1, hy2⟩ := ofRat_rel ((p : ℚ) / 100)
    (by
      have h70 : (2 : ℚ) ^ (-70 : ℤ) = 1 / 2 ^ 70 := by rw [zpow_neg]; norm_num
      rw [h70]
      have e : (1 : ℚ) / 2 ^ 70 ≤ 1 / 100 := by norm_num
      linarith)
    (by
      have h80 : (2 : ℚ) ^ (80 : ℤ) = 2 ^ 80 := by norm_num
      rw [h80]
      have e : (2 : ℚ) ^ 50 / 100 ≤ 2 ^ 80 := by norm_num
      linarith)
  have hdiv : div (fin (p : ℚ)) (fin 100) = fin y := by
    simp [div, hy]
  have herr : (p : ℚ) / 100 / 2 ^ 53 ≤ 1 / 800 := by
    rw [div_le_iff₀ (by positivity)]
    have e : (1 : ℚ) / 800 * 2 ^ 53 = 2 ^ 50 / 100 := by norm_num
    rw [e]
    linarith
  have hk : roundHalfEven (y * 100) = p := by
    apply le_antisymm
    · apply roundHalfEven_le; linarith
    · apply le_roundHalfEven; linarith
  unfold expectedPercentage
  rw [hpi, h100, hdiv]
  simp only [round2, hk]

end Float64

namespace Float64

/-- The variable `expectedPercentage` for a percentage from 1 to 100. -/
theorem expectedPercentage_of_percent (p : ℤ) (h1 : 1 ≤ p) (h2 : p ≤ 100) :
    expectedPercentage p = ofRat ((p : ℚ) / 100) :=
  expectedPercentage_eq p h1 (le_trans h2 (by norm_num))

/-- For `p <= 0` the variable `expectedPercentage` is non-positive or `-Inf`. -/
theorem expectedPercentage_nonpos (p : ℤ) (hp : p ≤ 0) :
    expectedPercentage p = negInf ∨ ∃ v, v ≤ 0 ∧ expectedPercentage p = fin v := by
  unfold expectedPercentage ofInt
  have hp' : (p : ℚ) ≤ 0 := by exact_mod_cast hp
  have h100 : ofRat 100 = fin 100 := by decide!
  rw [h100]
  rcases ofRat_nonpos (p : ℚ) hp' with h | ⟨v, hv, h⟩
  · left; rw [h]; simp [div, round2]
  · rw [h]
    have hd : div (fin v) (fin 100) = ofRat (v / 100) := by simp [div]
    rw [hd]
    rcases ofRat_nonpos (v / 100) (by linarith) with h' | ⟨w, hw, h'⟩
    · left; rw [h']; rfl
    · rw [h']
      have hr : round2 (fin w) = ofRat ((roundHalfEven (w * 100) : ℚ) / 100) := rfl
      rw [hr]
      have hk : roundHalfEven (w * 100) ≤ 0 := roundHalfEven_nonpos (by linarith)
      have hk' : (roundHalfEven (w * 100) : ℚ) ≤ 0 := by exact_mod_cast hk
      exact ofRat_nonpos _ (by linarith)

end Float64

/-- Percent mode of `calculateFileSize`, with the parse and the stat read done. -/
theorem percentMode_eq (host : Host) (directory size percent reserve : String)
    (p : ℤ) (hpercent : percent ≠ "") (hparse : host.Atoi percent = .ok p) :
    calculateFileSize host directory size percent reserve =
      if Float64.ge (usedPercentage (host.getSysStatFunc directory)) (expectedPercentage p) then
        .error (GoError.AlreadyExceeded (usedPercentage (host.getSysStatFunc directory)))
      else
        .ok (Float64.fmt0 (Float64.floor (Float64.div
          (Float64.mul
            (Float64.sub (expectedPercentage p) (usedPercentage (host.getSysStatFunc directory)))
            (Float64.ofNat (host.getSysStatFunc directory).allBytes))
          (Float64.ofRat (1024 * 1024))))) := by
  simp [calculateFileSize, hpercent, hparse, usedPercentage, expectedPercentage]

/-- Without wrap-around the used bytes are the plain difference. -/
theorem usedBytes_of_le (stat : Statfs_t) (h : stat.availableBytes ≤ stat.allBytes) :
    stat.usedBytes = stat.allBytes - stat.availableBytes := by
  have hl := allBytes_lt stat
  unfold Statfs_t.usedBytes uint64
  have h1 : (0 : ℤ) ≤ (stat.allBytes : ℤ) - (stat.availableBytes : ℤ) := by omega
  have h2 : (stat.allBytes : ℤ) - (stat.availableBytes : ℤ) < 2 ^ 64 := by omega
  rw [Int.emod_eq_of_lt h1 h2]
  omega

/-- Without wrap-around the usage ratio is at most one. -/
theorem usedRatio_le_one (stat : Statfs_t) (hT : 0 < stat.allBytes)
    (h : stat.availableBytes ≤ stat.allBytes) : usedRatio stat ≤ 1 := by
  unfold usedRatio
  have ht : (0 : ℚ) < stat.allBytes := by exact_mod_cast hT
  rw [div_le_one ht, usedBytes_of_le stat h]
  exact_mod_cast Nat.sub_le _ _

/-- Rendering of a non-negative integer-valued float. -/
theorem fmt0_floor (V : ℚ) (hV : 0 ≤ V) :
    Float64.fmt0 (Float64.floor (Float64.fin V)) = toString ⌊V⌋.toNat := by
  have hf : 0 ≤ ⌊V⌋ := Int.floor_nonneg.mpr hV
  have hq : ¬ ((⌊V⌋ : ℤ) : ℚ) < 0 := by
    push_neg; exact_mod_cast hf
  simp only [Float64.floor, Float64.fmt0, hq, if_false, roundHalfEven_intCast]
  have : ⌊V⌋.natAbs = ⌊V⌋.toNat := by omega
  rw [this]
  simp

/-- The lower end of the magnitudes in the calculator, as a fraction. -/
theorem two_zpow_neg70 : (2 : ℚ) ^ (-70 : ℤ) = 1 / 2 ^ 70 := by
  rw [zpow_neg]; norm_num

/-- The upper end of the magnitudes in the calculator, as a natural power. -/
theorem two_zpow_80 : (2 : ℚ) ^ (80 : ℤ) = 2 ^ 80 := by norm_num

/-- A number of hundredths between 1 and `2^70` rounds within the normal range. -/
theorem hundredths_rel (k : ℤ) (h1 : 1 ≤ k) (h2 : k ≤ 100) :
    ∃ v, ofRat ((k : ℚ) / 100) = fin v ∧
      (k : ℚ) / 100 - 1 / 2 ^ 53 ≤ v ∧ v ≤ (k : ℚ) / 100 + 1 / 2 ^ 53 := by
  have h1q : (1 : ℚ) ≤ k := by exact_mod_cast h1
  have h2q : (k : ℚ) ≤ 100 := by exact_mod_cast h2
  obtain ⟨v, hv, hv1, hv2⟩ := ofRat_rel ((k : ℚ) / 100)
    (by
      rw [two_zpow_neg70]
      have e : (1 : ℚ) / 2 ^ 70 ≤ 1 / 100 := by norm_num
      linarith)
    (by
      rw [two_zpow_80]
      have e : (1 : ℚ) ≤ 2 ^ 80 := by norm_num
      linarith)
  have e1 : (k : ℚ) / 100 / 2 ^ 53 ≤ 1 / 2 ^ 53 := by
    apply div_le_div_of_nonneg_right _ (by positivity); linarith
  exact ⟨v, hv, by linarith, by linarith⟩

/-- The remainder `expectedPercentage - usedPercentage` for `k` hundredths used
and a percentage `p` above it. -/
theorem remainder_rel (p k : ℤ) (hk0 : 0 ≤ k) (hkp : k < p) (hp : p ≤ 100) :
    ∃ E U R, ofRat ((p : ℚ) / 100) = fin E ∧ ofRat ((k : ℚ) / 100) = fin U ∧ U < E ∧
      ofRat (E - U) = fin R ∧
      ((p : ℚ) - k) / 100 - 4 / 2 ^ 53 ≤ R ∧ R ≤ ((p : ℚ) - k) / 100 + 4 / 2 ^ 53 := by
  obtain ⟨E, hE, hE1, hE2⟩ := hundredths_rel p (by omega) hp
  have hkq0 : (0 : ℚ) ≤ k := by exact_mod_cast hk0
  have hkpq : (k : ℚ) + 1 ≤ p := by exact_mod_cast hkp
  have hpq : (p : ℚ) ≤ 100 := by exact_mod_cast hp
  have hU : ∃ U, ofRat ((k : ℚ) / 100) = fin U ∧
      (k : ℚ) / 100 - 1 / 2 ^ 53 ≤ U ∧ U ≤ (k : ℚ) / 100 + 1 / 2 ^ 53 := by
    rcases hk0.eq_or_lt with h0 | hpos
    · refine ⟨0, ?_, ?_, ?_⟩
      · rw [← h0]; simp [ofRat]
      · rw [← h0]; norm_num
      · rw [← h0]; norm_num
    · exact hundredths_rel k (by omega) (by omega)
  obtain ⟨U, hU, hU1, hU2⟩ := hU
  have hd1 : (1 : ℚ) / 100 - 2 / 2 ^ 53 ≤ E - U := by linarith
  have hd2 : E - U ≤ 1 + 2 / 2 ^ 53 := by linarith
  have hUE : U < E := by
    have e : (0 : ℚ) < 1 / 100 - 2 / 2 ^ 53 := by norm_num
    linarith
  obtain ⟨R, hR, hR1, hR2⟩ := ofRat_rel (E - U)
    (by
      rw [two_zpow_neg70]
      have e : (1 : ℚ) / 2 ^ 70 ≤ 1 / 100 - 2 / 2 ^ 53 := by norm_num
      linarith)
    (by
      rw [two_zpow_80]
      have e : (1 : ℚ) + 2 / 2 ^ 53 ≤ 2 ^ 80 := by norm_num
      linarith)
  have e : (E - U) / 2 ^ 53 ≤ 2 / 2 ^ 53 := by
    apply div_le_div_of_nonneg_right _ (by positivity)
    have e' : (2 : ℚ) / 2 ^ 53 ≤ 1 := by norm_num
    linarith
  exact ⟨E, U, R, hE, hU, hUE, hR, by linarith, by linarith⟩

/-- The product of the remainder with the total and its division by one MiB. -/
theorem scale_rel (R : ℚ) (T : ℕ) (hR1 : 1 / 128 ≤ R) (hR2 : R ≤ 2) (hT : 0 < T)
    (hTl : T < 2 ^ 64) :
    ∃ b W V, ofNat T = fin b ∧ ofRat (R * b) = fin W ∧ ofRat (W / 1048576) = fin V ∧
      0 ≤ V ∧
      (T : ℚ) - T / 2 ^ 53 ≤ b ∧ b ≤ T + T / 2 ^ 53 ∧
      R * b - R * b / 2 ^ 53 ≤ W ∧ W ≤ R * b + R * b / 2 ^ 53 ∧
      W / 1048576 - W / 1048576 / 2 ^ 53 ≤ V ∧ V ≤ W / 1048576 + W / 1048576 / 2 ^ 53 := by
  have ht : (0 : ℚ) < T := by exact_mod_cast hT
  have ht1 : (1 : ℚ) ≤ T := by exact_mod_cast hT
  have htl : (T : ℚ) < 2 ^ 64 := by exact_mod_cast hTl
  have hR0 : 0 ≤ R := by linarith
  obtain ⟨b, hbv, hb1, hb2⟩ := ofNat_rel T hTl
  have hble : b ≤ 2 ^ 65 := by
    have : (T : ℚ) / 2 ^ 53 ≤ T := div_le_self ht.le (by norm_num)
    have e : (2 : ℚ) ^ 64 + 2 ^ 64 = 2 ^ 65 := by norm_num
    linarith
  have hbge : 1 / 2 ≤ b := by
    have : (T : ℚ) / 2 ^ 53 ≤ T / 2 := by
      apply div_le_div_of_nonneg_left ht.le (by norm_num) (by norm_num)
    linarith
  have hb0 : 0 ≤ b := by linarith
  have hRbge : 1 / 256 ≤ R * b := by
    have h12 : (0 : ℚ) ≤ 1 / 2 := by norm_num
    have h := mul_le_mul hR1 hbge h12 hR0
    have e : (1 : ℚ) / 128 * (1 / 2) = 1 / 256 := by norm_num
    rw [e] at h
    exact h
  have hRble : R * b ≤ 2 ^ 66 := by
    have h2 : (0 : ℚ) ≤ 2 := by norm_num
    have h := mul_le_mul hR2 hble hb0 h2
    have e : (2 : ℚ) * 2 ^ 65 = 2 ^ 66 := by norm_num
    rw [e] at h
    exact h
  obtain ⟨W, hWv, hW1, hW2⟩ := ofRat_rel (R * b)
    (by
      rw [two_zpow_neg70]
      have e : (1 : ℚ) / 2 ^ 70 ≤ 1 / 256 := by norm_num
      linarith)
    (by
      rw [two_zpow_80]
      have e : (2 : ℚ) ^ 66 ≤ 2 ^ 80 := by norm_num
      linarith)
  have hWge : 1 / 512 ≤ W := by
    have : R * b / 2 ^ 53 ≤ R * b / 2 := by
      apply div_le_div_of_nonneg_left (by positivity) (by norm_num) (by norm_num)
    linarith
  have hWle : W ≤ 2 ^ 67 := by
    have : R * b / 2 ^ 53 ≤ R * b := div_le_self (by positivity) (by norm_num)
    have e : (2 : ℚ) ^ 66 + 2 ^ 66 = 2 ^ 67 := by norm_num
    linarith
  obtain ⟨V, hVv, hV1, hV2⟩ := ofRat_rel (W / 1048576)
    (by
      rw [two_zpow_neg70]
      have e : (1 : ℚ) / 2 ^ 70 ≤ 1 / 512 / 1048576 := by norm_num
      have : (1 : ℚ) / 512 / 1048576 ≤ W / 1048576 := by
        apply div_le_div_of_nonneg_right hWge (by norm_num)
      linarith)
    (by
      rw [two_zpow_80]
      have : W / 1048576 ≤ W := div_le_self (by linarith) (by norm_num)
      have e : (2 : ℚ) ^ 67 ≤ 2 ^ 80 := by norm_num
      linarith)
  have hV0 : 0 ≤ V := by
    have h1 : 0 ≤ W / 1048576 := by positivity
    have : W / 1048576 / 2 ^ 53 ≤ W / 1048576 := div_le_self h1 (by norm_num)
    linarith
  exact ⟨b, W, V, hbv, hWv, hVv, hV0, hb1, hb2, hW1, hW2, hV1, hV2⟩

/-- The smallest normal number is below `1/128`. -/
theorem two_zpow_neg1022_le : (2 : ℚ) ^ (-1022 : ℤ) ≤ 1 / 128 := by
  have h70 : (2 : ℚ) ^ (-1022 : ℤ) ≤ 2 ^ (-7 : ℤ) :=
    zpow_le_zpow_right₀ (by norm_num) (by norm_num)
  have : (2 : ℚ) ^ (-7 : ℤ) = 1 / 128 := by rw [zpow_neg]; norm_num
  rwa [this] at h70

/-- The magnitudes in the calculator stay below the overflow threshold. -/
theorem two_pow_80_lt : (2 : ℚ) ^ 80 < 2 ^ (1023 : ℤ) := by
  have h10 : (2 : ℚ) ^ (80 : ℤ) < 2 ^ (1023 : ℤ) :=
    zpow_lt_zpow_right₀ (by norm_num) (by norm_num)
  rwa [two_zpow_80] at h10

/-- A positive value of at most one rounds to a finite value that exceeds it
by at most one half. -/
theorem Float64.ofRat_small (q : ℚ) (h0 : 0 < q) (h1 : q ≤ 1) :
    ∃ v, ofRat q = fin v ∧ 0 ≤ v ∧ v ≤ q + 1 / 2 := by
  have hq : q ≠ 0 := h0.ne'
  obtain ⟨s1, -⟩ := ilog2_spec q hq
  rw [abs_of_pos h0] at s1
  have two : (1 : ℚ) < 2 := by norm_num
  have hil : ilog2 q ≤ 0 := by
    have h : (2 : ℚ) ^ ilog2 q ≤ 2 ^ (0 : ℤ) := by simpa using le_trans s1 h1
    exact (zpow_le_zpow_iff_right₀ two).mp h
  have he : ulpExp q ≤ 0 := by
    unfold ulpExp
    exact max_le (by omega) (by norm_num)
  have hpe : (0 : ℚ) < 2 ^ ulpExp q := by positivity
  have hpe1 : (2 : ℚ) ^ ulpExp q ≤ 1 := zpow_le_one_of_nonpos₀ two.le he
  have hrnd := roundHalfEven_sub_le (q / 2 ^ ulpExp q)
  rw [abs_le] at hrnd
  have hm0 : (0 : ℚ) ≤ (roundHalfEven (q / 2 ^ ulpExp q) : ℚ) := by
    have : 0 ≤ roundHalfEven (q / 2 ^ ulpExp q) := roundHalfEven_nonneg (by positivity)
    exact_mod_cast this
  have hv0 : 0 ≤ (roundHalfEven (q / 2 ^ ulpExp q) : ℚ) * 2 ^ ulpExp q := by positivity
  have hv1 : (roundHalfEven (q / 2 ^ ulpExp q) : ℚ) * 2 ^ ulpExp q ≤ q + 1 / 2 := by
    have h := mul_le_mul_of_nonneg_right hrnd.2 hpe.le
    have e : ((roundHalfEven (q / 2 ^ ulpExp q) : ℚ) - q / 2 ^ ulpExp q) * 2 ^ ulpExp q
        = (roundHalfEven (q / 2 ^ ulpExp q) : ℚ) * 2 ^ ulpExp q - q := by
      field_simp
    rw [e] at h
    have : (1 : ℚ) / 2 * 2 ^ ulpExp q ≤ 1 / 2 := by linarith
    linarith
  refine ⟨_, ?_, hv0, hv1⟩
  unfold ofRat
  simp only [hq, if_false]
  rw [if_neg]
  push_neg
  rw [abs_of_nonneg hv0]
  have hbig : (2 : ℚ) ≤ 2 ^ (1024 : ℕ) := by
    have := pow_le_pow_right₀ two.le (show 1 ≤ 1024 by norm_num)
    simpa using this
  linarith

/-- The subtraction `availableMB - r` of reserve mode, for an available size below
`2^53` bytes and a reserve from `-2^52` up to it: the result is finite and
its floor is the floor of the exact difference, or one more. -/
theorem reserve_floor (n : ℕ) (q : ℚ) (hn : n < 2 ^ 53) (hq1 : -(2 : ℚ) ^ 52 ≤ q)
    (hq2 : q < (n : ℚ) / 1048576) :
    ∃ d : ℚ, ofRat ((n : ℚ) / 1048576 - q) = fin d ∧ 0 ≤ d ∧
      ⌊(n : ℚ) / 1048576 - q⌋ ≤ ⌊d⌋ ∧ ⌊d⌋ ≤ ⌊(n : ℚ) / 1048576 - q⌋ + 1 := by
  have hnq : (n : ℚ) < 2 ^ 53 := by exact_mod_cast hn
  have hx0 : 0 < (n : ℚ) / 1048576 - q := by linarith
  have hxu : (n : ℚ) / 1048576 - q < 2 ^ 53 - 1 := by
    have : (n : ℚ) / 1048576 < 2 ^ 33 := by
      rw [div_lt_iff₀ (by norm_num)]
      have e : (2 : ℚ) ^ 33 * 1048576 = 2 ^ 53 := by norm_num
      linarith
    have e : (2 : ℚ) ^ 33 + 2 ^ 52 < 2 ^ 53 - 1 := by norm_num
    linarith
  have h53 : (2 : ℚ) ^ 53 < 2 ^ (1023 : ℤ) := by
    have h : (2 : ℚ) ^ (53 : ℤ) < 2 ^ (1023 : ℤ) :=
      zpow_lt_zpow_right₀ (by norm_num) (by norm_num)
    have e : (2 : ℚ) ^ (53 : ℤ) = 2 ^ 53 := by norm_num
    rwa [e] at h
  have hmin1 : (2 : ℚ) ^ (-1022 : ℤ) ≤ 1 := zpow_le_one_of_nonpos₀ (by norm_num) (by norm_num)
  -- the rounded difference is finite and exceeds the exact one by less than one
  have hfin : ∃ d : ℚ, ofRat ((n : ℚ) / 1048576 - q) = fin d ∧ 0 ≤ d ∧
      d < (n : ℚ) / 1048576 - q + 1 := by
    by_cases hx : (2 : ℚ) ^ (-1022 : ℤ) ≤ (n : ℚ) / 1048576 - q
    · obtain ⟨d, hd, herr⟩ := ofRat_normal ((n : ℚ) / 1048576 - q)
        (by rw [abs_of_pos hx0]; exact hx) (by rw [abs_of_pos hx0]; linarith)
      rw [abs_of_pos hx0, abs_le] at herr
      have h1 : ((n : ℚ) / 1048576 - q) / 2 ^ 53 < 1 := by
        rw [div_lt_iff₀ (by positivity)]
        linarith
      have h2 : ((n : ℚ) / 1048576 - q) / 2 ^ 53 ≤ (n : ℚ) / 1048576 - q :=
        div_le_self hx0.le (by norm_num)
      exact ⟨d, hd, by linarith, by linarith⟩
    · push_neg at hx
      obtain ⟨d, hd, hd0, hd1⟩ := ofRat_small _ hx0 (by linarith)
      exact ⟨d, hd, hd0, by linarith⟩
  obtain ⟨d, hd, hd0, hd1⟩ := hfin
  refine ⟨d, hd, hd0, ?_, ?_⟩
  · rw [Int.le_floor]
    have hk0 : 0 ≤ ⌊(n : ℚ) / 1048576 - q⌋ := Int.floor_nonneg.mpr hx0.le
    rcases hk0.eq_or_lt with h0 | hpos
    · rw [← h0]; simpa using hd0
    · have hk1 : (1 : ℚ) ≤ (⌊(n : ℚ) / 1048576 - q⌋ : ℚ) := by exact_mod_cast hpos
      have hkx : (⌊(n : ℚ) / 1048576 - q⌋ : ℚ) ≤ (n : ℚ) / 1048576 - q := Int.floor_le _
      obtain ⟨va, vb, ha, hb, hab⟩ := ofRat_mono (⌊(n : ℚ) / 1048576 - q⌋ : ℚ)
        ((n : ℚ) / 1048576 - q) (by linarith) hkx (by linarith)
      have hki : |⌊(n : ℚ) / 1048576 - q⌋| < 2 ^ 53 := by
        rw [abs_of_nonneg hk0]
        have : (⌊(n : ℚ) / 1048576 - q⌋ : ℚ) < ((2 ^ 53 : ℤ) : ℚ) := by
          push_cast; linarith
        exact_mod_cast this
      rw [ofRat_intCast _ hki] at ha
      rw [hd] at hb
      cases ha
      cases hb
      exact hab
  · have h : ⌊d⌋ < ⌊(n : ℚ) / 1048576 - q⌋ + 1 + 1 := by
      rw [Int.floor_lt]
      have := Int.lt_floor_add_one ((n : ℚ) / 1048576 - q)
      push_cast
      linarith
    omega

/-- The subtraction `availableMB - r` of reserve mode is exact when the available
size is below `2^53` bytes and the reserve is a whole number of `2^-20` MB
below it. -/
theorem reserve_exact (n m : ℕ) (hn : n < 2 ^ 53) (hlt : (m : ℚ) / 1048576 < (n : ℚ) / 1048576) :
    ofRat ((n : ℚ) / 1048576 - (m : ℚ) / 1048576)
      = fin ((n : ℚ) / 1048576 - (m : ℚ) / 1048576) := by
  have hmn : m < n := by
    have : (m : ℚ) < n := by
      have := (div_lt_div_iff_of_pos_right (by norm_num : (0 : ℚ) < 1048576)).mp hlt
      exact this
    exact_mod_cast this
  have hi : |(n : ℤ) - (m : ℤ)| < 2 ^ 53 := by
    rw [abs_of_nonneg (by omega)]
    have : (n : ℤ) < 2 ^ 53 := by exact_mod_cast hn
    omega
  have h := ofRat_exact ((n : ℤ) - (m : ℤ)) (-20) hi (by norm_num) (by norm_num)
  have e : (((n : ℤ) - (m : ℤ) : ℤ) : ℚ) * 2 ^ (-20 : ℤ)
      = (n : ℚ) / 1048576 - (m : ℚ) / 1048576 := by
    rw [zpow_neg]; push_cast; norm_num; ring
  rwa [e] at h

/-- The number of hundredths to which the code rounds the usage: the value of
`usedPercentage` is the float nearest to `k/100` for an integer `k >= 0` that is
the rounding of `100 * x`, where `x` is the float quotient. -/
theorem usedHundredths_spec (stat : Statfs_t) (hT : 0 < stat.allBytes) :
    ∃ (x : ℚ) (k : ℤ), 0 ≤ x ∧
      usedRatio stat - 5 * usedRatio stat / 2 ^ 53 ≤ x ∧
      x ≤ usedRatio stat + 5 * usedRatio stat / 2 ^ 53 ∧
      x * 100 - 1 / 2 ≤ k ∧ (k : ℚ) ≤ x * 100 + 1 / 2 ∧
      k = roundHalfEven (x * 100) ∧
      0 ≤ k ∧ (k : ℚ) ≤ 2 ^ 80 ∧
      usedPercentage stat = ofRat ((k : ℚ) / 100) := by
  obtain ⟨x, hx0, hx1, hx2, hk0, hU⟩ := usedPercentage_spec stat hT
  have hr := roundHalfEven_sub_le (x * 100)
  rw [abs_le] at hr
  have ht : (0 : ℚ) < stat.allBytes := by exact_mod_cast hT
  have ht1 : (1 : ℚ) ≤ stat.allBytes := by exact_mod_cast hT
  have hzl : (stat.usedBytes : ℚ) < 2 ^ 64 := by exact_mod_cast usedBytes_lt stat
  have hz : (0 : ℚ) ≤ stat.usedBytes := Nat.cast_nonneg _
  have hu0 : 0 ≤ usedRatio stat := div_nonneg hz ht.le
  have hule : usedRatio stat ≤ 2 ^ 64 := by
    unfold usedRatio
    rw [div_le_iff₀ ht]
    nlinarith
  have h5 : (5 : ℚ) * usedRatio stat / 2 ^ 53 ≤ usedRatio stat := by
    rw [div_le_iff₀ (by positivity)]
    nlinarith
  refine ⟨x, roundHalfEven (x * 100), hx0, hx1, hx2, by linarith, by linarith, rfl, hk0, ?_, hU⟩
  have e : ((2 : ℚ) ^ 64 + 2 ^ 64) * 100 + 1 / 2 ≤ 2 ^ 80 := by norm_num
  linarith

/-- The comparison of the code holds as soon as the hundredths used reach `p`. -/
theorem ge_of_hundredths (stat : Statfs_t) (p k : ℤ) (hk0 : 0 ≤ k) (hk : (k : ℚ) ≤ 2 ^ 80)
    (hU : usedPercentage stat = ofRat ((k : ℚ) / 100)) (hp : p ≤ 100) (hpk : p ≤ k) :
    Float64.ge (usedPercentage stat) (expectedPercentage p) = true := by
  have hk0q : (0 : ℚ) ≤ (k : ℚ) := by exact_mod_cast hk0
  rcases le_or_lt p 0 with hp0 | hp0
  · rcases expectedPercentage_nonpos p hp0 with hE | ⟨e, he, hE⟩ <;>
      rcases ofRat_nonneg ((k : ℚ) / 100) (div_nonneg hk0q (by norm_num)) with
        hV | ⟨v, hv, hV⟩ <;>
      rw [hU, hV, hE] <;> simp [Float64.ge, Float64.le]
    linarith
  · have hp1 : (1 : ℚ) ≤ p := by exact_mod_cast hp0
    have hkq : (p : ℚ) ≤ (k : ℚ) := by exact_mod_cast hpk
    obtain ⟨va, vb, ha, hb, hab⟩ := ofRat_mono ((p : ℚ) / 100) ((k : ℚ) / 100)
      (by have := two_zpow_neg1022_le; linarith)
      (by linarith)
      (by
        have := two_pow_80_lt
        linarith)
    rw [hU, expectedPercentage_of_percent p hp0 hp, ha, hb]
    simp [Float64.ge, Float64.le, hab]

/-- The arithmetic of the size: from the error bounds of the subtraction, the
conversion, the product and the division to the distance between the float
result and the exact product. -/
theorem scale_arith (t k p R b W V : ℚ) (ht1 : 1 ≤ t)
    (hk0 : 0 ≤ k) (hkp : k ≤ p - 1) (hp : p ≤ 100)
    (hRlo : (p - k) / 100 - 4 / 2 ^ 53 ≤ R) (hRhi : R ≤ (p - k) / 100 + 4 / 2 ^ 53)
    (hb1 : t - t / 2 ^ 53 ≤ b) (hb2 : b ≤ t + t / 2 ^ 53)
    (hW1 : R * b - R * b / 2 ^ 53 ≤ W) (hW2 : W ≤ R * b + R * b / 2 ^ 53)
    (hV1 : W / 1048576 - W / 1048576 / 2 ^ 53 ≤ V)
    (hV2 : V ≤ W / 1048576 + W / 1048576 / 2 ^ 53) :
    (p - k) / 100 * t - t / 2 ^ 50 ≤ V * 1048576 ∧
      V * 1048576 ≤ (p - k) / 100 * t + t / 2 ^ 50 := by
  have ht : 0 < t := by linarith
  have hR0 : 0 ≤ R := by
    have e : (0 : ℚ) ≤ 1 / 100 - 4 / 2 ^ 53 := by norm_num
    linarith
  have hRb1 : R * (t - t / 2 ^ 53) ≤ R * b := mul_le_mul_of_nonneg_left hb1 hR0
  have hRb2 : R * b ≤ R * (t + t / 2 ^ 53) := mul_le_mul_of_nonneg_left hb2 hR0
  have hRt1 : ((p - k) / 100 - 4 / 2 ^ 53) * t ≤ R * t := mul_le_mul_of_nonneg_right hRlo ht.le
  have hRt2 : R * t ≤ ((p - k) / 100 + 4 / 2 ^ 53) * t := mul_le_mul_of_nonneg_right hRhi ht.le
  have hkt0 : 0 ≤ k * t := mul_nonneg hk0 ht.le
  have hkt : k * t ≤ (p - 1) * t := mul_le_mul_of_nonneg_right hkp ht.le
  have hpt : p * t ≤ 100 * t := mul_le_mul_of_nonneg_right hp ht.le
  have g1 : R * (t - t / 2 ^ 53) = (1 - 1 / 2 ^ 53) * (R * t) := by ring
  have g2 : R * (t + t / 2 ^ 53) = (1 + 1 / 2 ^ 53) * (R * t) := by ring
  have g3 : ((p - k) / 100 - 4 / 2 ^ 53) * t = (p * t - k * t) / 100 - 4 / 2 ^ 53 * t := by ring
  have g4 : ((p - k) / 100 + 4 / 2 ^ 53) * t = (p * t - k * t) / 100 + 4 / 2 ^ 53 * t := by ring
  have g5 : (p - 1) * t = p * t - t := by ring
  have g6 : (p - k) / 100 * t = (p * t - k * t) / 100 := by ring
  rw [g1] at hRb1
  rw [g2] at hRb2
  rw [g3] at hRt1
  rw [g4] at hRt2
  rw [g5] at hkt
  rw [g6]
  constructor <;> linarith

/-- Percent mode below the target: for `k` hundredths used and a percentage
`k < p <= 100` the comparison of the code lets the call through, and the float
size is within `totalBytes / 2^50` bytes of `(p - k)/100 * totalBytes`. -/
theorem size_core (stat : Statfs_t) (p k : ℤ) (hT : 0 < stat.allBytes)
    (hk0 : 0 ≤ k) (hkp : k < p) (hp : p ≤ 100)
    (hU : usedPercentage stat = ofRat ((k : ℚ) / 100)) :
    Float64.ge (usedPercentage stat) (expectedPercentage p) = false ∧
    ∃ V : ℚ, 0 ≤ V ∧
      Float64.div
          (Float64.mul (Float64.sub (expectedPercentage p) (usedPercentage stat))
            (Float64.ofNat stat.allBytes))
          (Float64.ofRat (1024 * 1024)) = Float64.fin V ∧
      ((p : ℚ) - k) / 100 * stat.allBytes - stat.allBytes / 2 ^ 50 ≤ V * 1048576 ∧
      V * 1048576 ≤ ((p : ℚ) - k) / 100 * stat.allBytes + stat.allBytes / 2 ^ 50 := by
  have hE := expectedPercentage_of_percent p (by omega) hp
  obtain ⟨E, U, R, hEv, hUv, hUE, hRv, hRlo, hRhi⟩ := remainder_rel p k hk0 hkp hp
  have hk0q : (0 : ℚ) ≤ (k : ℚ) := by exact_mod_cast hk0
  have hkpq : (k : ℚ) ≤ (p : ℚ) - 1 := by
    have : k ≤ p - 1 := by omega
    exact_mod_cast this
  have hpq : (p : ℚ) ≤ 100 := by exact_mod_cast hp
  have hR1 : 1 / 128 ≤ R := by
    have e : (1 : ℚ) / 128 ≤ 1 / 100 - 4 / 2 ^ 53 := by norm_num
    linarith
  have hR2 : R ≤ 2 := by
    have e : (1 : ℚ) + 4 / 2 ^ 53 ≤ 2 := by norm_num
    linarith
  obtain ⟨b, W, V, hbv, hWv, hVv, hV0, hb1, hb2, hW1, hW2, hV1, hV2⟩ :=
    scale_rel R stat.allBytes hR1 hR2 hT (allBytes_lt stat)
  have ht1 : (1 : ℚ) ≤ stat.allBytes := by exact_mod_cast hT
  refine ⟨?_, V, hV0, ?_, scale_arith stat.allBytes k p R b W V ht1 hk0q hkpq hpq hRlo hRhi
    hb1 hb2 hW1 hW2 hV1 hV2⟩
  · rw [hU, hE, hUv, hEv]
    simp [Float64.ge, Float64.le, hUE]
  · have hmib : Float64.ofRat (1024 * 1024) = Float64.fin 1048576 := by decide!
    rw [hU, hE, hUv, hEv, hbv, hmib]
    simp only [Float64.sub, hRv, Float64.mul, hWv, Float64.div]
    simp [hVv]

/-- A usage of at least `p/100` is rounded to at least `p` hundredths. -/
theorem hundredths_ge_of_ratio (u x : ℚ) (p k : ℤ) (hp1 : 1 ≤ p) (hp : p ≤ 100)
    (hle : (p : ℚ) / 100 ≤ u) (hx1 : u - 5 * u / 2 ^ 53 ≤ x) (hk : k = roundHalfEven (x * 100)) :
    p ≤ k := by
  have hp1q : (1 : ℚ) ≤ p := by exact_mod_cast hp1
  have hpq : (p : ℚ) ≤ 100 := by exact_mod_cast hp
  rw [hk]
  apply le_roundHalfEven
  have e1 : u - 5 * u / 2 ^ 53 = (1 - 5 / 2 ^ 53) * u := by ring
  have e2 : (1 - 5 / 2 ^ 53 : ℚ) * ((p : ℚ) / 100) ≤ (1 - 5 / 2 ^ 53) * u :=
    mul_le_mul_of_nonneg_left hle (by norm_num)
  have e3 : (1 - 5 / 2 ^ 53 : ℚ) * ((p : ℚ) / 100) = (p : ℚ) / 100 - 5 / 2 ^ 53 / 100 * p := by
    ring
  have e4 : (5 : ℚ) / 2 ^ 53 / 100 * p ≤ 5 / 2 ^ 53 := by
    have : (5 : ℚ) / 2 ^ 53 / 100 * p ≤ 5 / 2 ^ 53 / 100 * 100 :=
      mul_le_mul_of_nonneg_left hpq (by norm_num)
    linarith
  have e5 : (5 : ℚ) / 2 ^ 53 * 100 < 1 / 2 := by norm_num
  rw [e1] at hx1
  rw [e3] at e2
  linarith

/-- A usage below `p/100` by more than `0.005 + 2^-50` is rounded to fewer than
`p` hundredths. -/
theorem hundredths_lt_of_ratio (u x : ℚ) (p k : ℤ) (hp : p ≤ 100)
    (hlt : u < (p : ℚ) / 100 - 1 / 200 - 1 / 2 ^ 50) (hx2 : x ≤ u + 5 * u / 2 ^ 53)
    (hk : k = roundHalfEven (x * 100)) : k < p := by
  have hpq : (p : ℚ) ≤ 100 := by exact_mod_cast hp
  have hk1 : k ≤ p - 1 := by
    rw [hk]
    apply roundHalfEven_le
    push_cast
    have hu1 : u ≤ 1 := by
      have e : (0 : ℚ) ≤ 1 / 200 + 1 / 2 ^ 50 := by norm_num
      linarith
    have e1 : 5 * u / 2 ^ 53 ≤ 5 / 2 ^ 53 := by
      apply div_le_div_of_nonneg_right _ (by positivity); linarith
    have e2 : (5 : ℚ) / 2 ^ 53 * 100 ≤ 1 / 2 ^ 50 * 100 := by norm_num
    linarith
  omega

/-- The arithmetic of the tolerance: from the distance between the float size and
the exact product to the distance between the usage after filling and the
percentage. -/
theorem tolerance_of_size (t z x k p V f : ℚ)
    (ht1 : 1 ≤ t) (hzt : z ≤ t)
    (hxz1 : (1 - 5 / 2 ^ 53) * z ≤ x * t) (hxz2 : x * t ≤ (1 + 5 / 2 ^ 53) * z)
    (hk1 : x * 100 - 1 / 2 ≤ k) (hk2 : k ≤ x * 100 + 1 / 2)
    (hV1 : (p - k) / 100 * t - t / 2 ^ 50 ≤ V * 1048576)
    (hV2 : V * 1048576 ≤ (p - k) / 100 * t + t / 2 ^ 50)
    (hf1 : f ≤ V) (hf2 : V < f + 1) :
    |(z + f * 1048576) / t - p / 100| ≤ 1 / 200 + 1048576 / t + 1 / 2 ^ 49 := by
  have ht : 0 < t := by linarith
  have hxk1 : (x * 100 - 1 / 2) * t ≤ k * t := mul_le_mul_of_nonneg_right hk1 ht.le
  have hxk2 : k * t ≤ (x * 100 + 1 / 2) * t := mul_le_mul_of_nonneg_right hk2 ht.le
  have g6 : (x * 100 - 1 / 2) * t = 100 * (x * t) - t / 2 := by ring
  have g7 : (x * 100 + 1 / 2) * t = 100 * (x * t) + t / 2 := by ring
  have g8 : (p - k) / 100 * t = (p * t - k * t) / 100 := by ring
  rw [g6] at hxk1
  rw [g7] at hxk2
  rw [g8] at hV1 hV2
  rw [abs_le]
  constructor
  · rw [le_sub_iff_add_le, le_div_iff₀ ht]
    have key : (-(1 / 200 + 1048576 / t + 1 / 2 ^ 49) + p / 100) * t
        = -(1 / 200 + 1 / 2 ^ 49) * t + (p * t) / 100 - 1048576 := by
      field_simp
      ring
    rw [key]
    linarith
  · rw [sub_le_iff_le_add, div_le_iff₀ ht]
    have key : (1 / 200 + 1048576 / t + 1 / 2 ^ 49 + p / 100) * t
        = (1 / 200 + 1 / 2 ^ 49) * t + (p * t) / 100 + 1048576 := by
      field_simp
      ring
    rw [key]
    linarith

/-- On a total above 100 MiB a percentage above the hundredths used gives a size
of at least one. -/
theorem one_le_size (t k p V : ℚ) (ht : 104857601 ≤ t) (hkp : k ≤ p - 1)
    (hV1 : (p - k) / 100 * t - t / 2 ^ 50 ≤ V * 1048576) : 1 ≤ V := by
  have ht0 : 0 ≤ t := by linarith
  have hkt : k * t ≤ (p - 1) * t := mul_le_mul_of_nonneg_right hkp ht0
  have g8 : (p - k) / 100 * t = (p * t - k * t) / 100 := by ring
  have g5 : (p - 1) * t = p * t - t := by ring
  rw [g8] at hV1
  rw [g5] at hkt
  have e : (1048576 : ℚ) ≤ (1 / 100 - 1 / 2 ^ 50) * 104857601 := by norm_num
  have e2 : (1 / 100 - 1 / 2 ^ 50 : ℚ) * 104857601 ≤ (1 / 100 - 1 / 2 ^ 50) * t :=
    mul_le_mul_of_nonneg_left ht (by norm_num)
  linarith

/-- On a total of at most `2^43` bytes the float noise cannot move the usage
across a rounding boundary: a usage below `p/100 - 0.005` is rounded to fewer
than `p` hundredths. -/
theorem hundredths_lt_of_ratio_small (z T : ℕ) (x : ℚ) (p k : ℤ) (hT : 0 < T)
    (hTs : T ≤ 2 ^ 43) (hp : p ≤ 100)
    (hlt : (z : ℚ) / T < (p : ℚ) / 100 - 1 / 200)
    (hxz2 : x * T ≤ (1 + 5 / 2 ^ 53) * z) (hk : k = roundHalfEven (x * 100)) : k < p := by
  have ht : (0 : ℚ) < T := by exact_mod_cast hT
  have hts : (T : ℚ) ≤ 2 ^ 43 := by exact_mod_cast hTs
  have hpq : (p : ℚ) ≤ 100 := by exact_mod_cast hp
  have hz0 : (0 : ℚ) ≤ z := Nat.cast_nonneg _
  have h1 : (z : ℚ) < ((p : ℚ) / 100 - 1 / 200) * T := (div_lt_iff₀ ht).mp hlt
  have hzT : (z : ℚ) ≤ T := by nlinarith
  have hint : (200 * (z : ℤ)) + 1 ≤ (2 * p - 1) * (T : ℤ) := by
    have : ((200 * (z : ℤ) : ℤ) : ℚ) < (((2 * p - 1) * (T : ℤ) : ℤ) : ℚ) := by
      push_cast
      linarith
    have := Int.cast_lt.mp this
    omega
  have hintq : 200 * (z : ℚ) + 1 ≤ (2 * (p : ℚ) - 1) * T := by exact_mod_cast hint
  have hk1 : k ≤ p - 1 := by
    rw [hk]
    apply roundHalfEven_le
    push_cast
    have key : x * 100 * T < ((p : ℚ) - 1 + 1 / 2) * T := by
      have e : (1000 : ℚ) / 2 ^ 53 * 2 ^ 43 < 1 := by norm_num
      have e2 : (1000 : ℚ) / 2 ^ 53 * z ≤ 1000 / 2 ^ 53 * 2 ^ 43 :=
        mul_le_mul_of_nonneg_left (le_trans hzT hts) (by norm_num)
      linarith
    exact lt_of_mul_lt_mul_right key ht.le
  omega

/-- On a total of at most `2^43` bytes the hundredths used are a nearest
integer to the exact usage in percent. -/
theorem nearest_of_small (z T : ℕ) (x : ℚ) (k : ℤ) (hTs : T ≤ 2 ^ 43) (hzT : z ≤ T)
    (hxz1 : (1 - 5 / 2 ^ 53) * z ≤ x * T) (hxz2 : x * T ≤ (1 + 5 / 2 ^ 53) * z)
    (hk1 : x * 100 - 1 / 2 ≤ k) (hk2 : (k : ℚ) ≤ x * 100 + 1 / 2) :
    |(k : ℚ) * T - 100 * z| ≤ T / 2 := by
  have ht0 : (0 : ℚ) ≤ T := Nat.cast_nonneg _
  have hts : (T : ℚ) ≤ 2 ^ 43 := by exact_mod_cast hTs
  have hz0 : (0 : ℚ) ≤ z := Nat.cast_nonneg _
  have hzq : (z : ℚ) ≤ T := by exact_mod_cast hzT
  have hxk1 : (x * 100 - 1 / 2) * T ≤ k * T := mul_le_mul_of_nonneg_right hk1 ht0
  have hxk2 : k * T ≤ (x * 100 + 1 / 2) * T := mul_le_mul_of_nonneg_right hk2 ht0
  have g6 : (x * 100 - 1 / 2) * T = 100 * (x * T) - T / 2 := by ring
  have g7 : (x * 100 + 1 / 2) * T = 100 * (x * T) + T / 2 := by ring
  rw [g6] at hxk1
  rw [g7] at hxk2
  have e : (1000 : ℚ) / 2 ^ 53 * 2 ^ 43 < 1 := by norm_num
  have e2 : (1000 : ℚ) / 2 ^ 53 * z ≤ 1000 / 2 ^ 53 * 2 ^ 43 :=
    mul_le_mul_of_nonneg_left (le_trans hzq hts) (by norm_num)
  by_contra hcon
  push_neg at hcon
  rcases lt_abs.mp hcon with h | h
  · have hint : (T : ℤ) + 200 * (z : ℤ) + 1 ≤ 2 * k * (T : ℤ) := by
      have : (((T : ℤ) + 200 * (z : ℤ) : ℤ) : ℚ) < ((2 * k * (T : ℤ) : ℤ) : ℚ) := by
        push_cast
        linarith
      have := Int.cast_lt.mp this
      omega
    have hintq : (T : ℚ) + 200 * (z : ℚ) + 1 ≤ 2 * (k : ℚ) * T := by exact_mod_cast hint
    linarith
  · have hint : 2 * k * (T : ℤ) + (T : ℤ) + 1 ≤ 200 * (z : ℤ) := by
      have : ((2 * k * (T : ℤ) + (T : ℤ) : ℤ) : ℚ) < ((200 * (z : ℤ) : ℤ) : ℚ) := by
        push_cast
        linarith
      have := Int.cast_lt.mp this
      omega
    have hintq : 2 * (k : ℚ) * T + (T : ℚ) + 1 ≤ 200 * (z : ℚ) := by exact_mod_cast hint
    linarith

/-- On a total of at most `2^43` bytes the float noise cannot move the size
across an integer: the floor `n` of the float size brackets the exact product
`c/100 * T / 2^20`, as `n * 104857600 <= c * T <= (n + 1) * 104857600`. -/
theorem floor_of_small (T : ℕ) (c n : ℤ) (V : ℚ) (hTs : T ≤ 2 ^ 43)
    (hV1 : (c : ℚ) / 100 * T - T / 2 ^ 50 ≤ V * 1048576)
    (hV2 : V * 1048576 ≤ (c : ℚ) / 100 * T + T / 2 ^ 50)
    (hf1 : (n : ℚ) ≤ V) (hf2 : V < (n : ℚ) + 1) :
    (n : ℚ) * 104857600 ≤ c * T ∧ (c : ℚ) * T ≤ ((n : ℚ) + 1) * 104857600 := by
  have hts : (T : ℚ) ≤ 2 ^ 43 := by exact_mod_cast hTs
  have e : (100 : ℚ) * (2 ^ 43 / 2 ^ 50) < 1 := by norm_num
  have e2 : (T : ℚ) / 2 ^ 50 ≤ 2 ^ 43 / 2 ^ 50 :=
    div_le_div_of_nonneg_right hts (by positivity)
  have g : (c : ℚ) / 100 * T = (c * T) / 100 := by ring
  rw [g] at hV1 hV2
  constructor
  · by_contra hcon
    push_neg at hcon
    have hint : c * (T : ℤ) + 1 ≤ n * 104857600 := by
      have : ((c * (T : ℤ) : ℤ) : ℚ) < ((n * 104857600 : ℤ) : ℚ) := by
        push_cast
        linarith
      have := Int.cast_lt.mp this
      omega
    have hintq : (c : ℚ) * T + 1 ≤ n * 104857600 := by exact_mod_cast hint
    linarith
  · by_contra hcon
    push_neg at hcon
    have hint : (n + 1) * 104857600 + 1 ≤ c * (T : ℤ) := by
      have : (((n + 1) * 104857600 : ℤ) : ℚ) < ((c * (T : ℤ) : ℤ) : ℚ) := by
        push_cast
        linarith
      have := Int.cast_lt.mp this
      omega
    have hintq : ((n : ℚ) + 1) * 104857600 + 1 ≤ c * T := by exact_mod_cast hint
    linarith

/-- The tolerance on a total of at most `2^43` bytes, from the two bracketing
facts: the hundredths used are nearest to the usage, and the size brackets the
exact product. -/
theorem tolerance_of_small (t z k p n : ℚ) (ht : 0 < t)
    (hk : |k * t - 100 * z| ≤ t / 2)
    (hn1 : n * 104857600 ≤ (p - k) * t) (hn2 : (p - k) * t ≤ (n + 1) * 104857600) :
    |(z + n * 1048576) / t - p / 100| ≤ 1 / 200 + 1048576 / t := by
  rw [abs_le] at hk ⊢
  have g : (p - k) * t = p * t - k * t := by ring
  rw [g] at hn1 hn2
  constructor
  · rw [le_sub_iff_add_le, le_div_iff₀ ht]
    have key : (-(1 / 200 + 1048576 / t) + p / 100) * t
        = -(1 / 200) * t + (p * t) / 100 - 1048576 := by
      field_simp
      ring
    rw [key]
    linarith
  · rw [sub_le_iff_le_add, div_le_iff₀ ht]
    have key : (1 / 200 + 1048576 / t + p / 100) * t
        = (1 / 200) * t + (p * t) / 100 + 1048576 := by
      field_simp
      ring
    rw [key]
    linarith

/-- Below `2^53` bytes the float `availableMB` is the exact quotient. -/
theorem availableMB_exact (n : ℕ) (hn : n < 2 ^ 53) :
    Float64.div (Float64.ofNat n) (Float64.ofRat (1024 * 1024))
      = Float64.fin ((n : ℚ) / 1048576) := by
  have hmib : Float64.ofRat (1024 * 1024) = Float64.fin 1048576 := by decide!
  have hni : |(n : ℤ)| < 2 ^ 53 := by
    rw [abs_of_nonneg (by omega)]
    exact_mod_cast hn
  have h1 : Float64.ofNat n = Float64.fin (n : ℚ) := by
    unfold Float64.ofNat
    have := Float64.ofRat_intCast (n : ℤ) hni
    simpa using this
  have h2 := Float64.ofRat_exact (n : ℤ) (-20) hni (by norm_num) (by norm_num)
  have e : ((n : ℤ) : ℚ) * 2 ^ (-20 : ℤ) = (n : ℚ) / 1048576 := by
    rw [zpow_neg]; norm_num; ring
  rw [e] at h2
  rw [h1, hmib]
  simp [Float64.div, h2]

/-- Reserve mode of `calculateFileSize`, with the parse and the stat read done. -/
theorem reserveMode_eq (host : Host) (directory size reserve : String) (r : Float64)
    (hreserve : reserve ≠ "") (hparse : host.ParseFloat reserve = .ok r) :
    calculateFileSize host directory size "" reserve =
      if Float64.le (Float64.div (Float64.ofNat (host.getSysStatFunc directory).availableBytes)
          (Float64.ofRat (1024 * 1024))) r then
        .error (GoError.InsufficientSpace
          (Float64.div (Float64.ofNat (host.getSysStatFunc directory).availableBytes)
            (Float64.ofRat (1024 * 1024))))
      else
        .ok (Float64.fmt0 (Float64.floor (Float64.sub
          (Float64.div (Float64.ofNat (host.getSysStatFunc directory).availableBytes)
            (Float64.ofRat (1024 * 1024))) r))) := by
  simp [calculateFileSize, hreserve, hparse]

/-- The float quotient against the exact usage, scaled by the total. -/
theorem quotient_scaled (stat : Statfs_t) (x : ℚ) (hT : 0 < stat.allBytes)
    (hx1 : usedRatio stat - 5 * usedRatio stat / 2 ^ 53 ≤ x)
    (hx2 : x ≤ usedRatio stat + 5 * usedRatio stat / 2 ^ 53) :
    (1 - 5 / 2 ^ 53) * (stat.usedBytes : ℚ) ≤ x * stat.allBytes ∧
      x * stat.allBytes ≤ (1 + 5 / 2 ^ 53) * (stat.usedBytes : ℚ) := by
  have ht : (0 : ℚ) < stat.allBytes := by exact_mod_cast hT
  have hut : usedRatio stat * stat.allBytes = stat.usedBytes := div_mul_cancel₀ _ ht.ne'
  have hxt1 := mul_le_mul_of_nonneg_right hx1 ht.le
  have hxt2 := mul_le_mul_of_nonneg_right hx2 ht.le
  have e1 : (usedRatio stat - 5 * usedRatio stat / 2 ^ 53) * stat.allBytes
      = (1 - 5 / 2 ^ 53) * (usedRatio stat * stat.allBytes) := by ring
  have e2 : (usedRatio stat + 5 * usedRatio stat / 2 ^ 53) * stat.allBytes
      = (1 + 5 / 2 ^ 53) * (usedRatio stat * stat.allBytes) := by ring
  rw [e1, hut] at hxt1
  rw [e2, hut] at hxt2
  exact ⟨hxt1, hxt2⟩

/-- Percent mode by cases on the hundredths used: the code rounds the usage to an
integer `k >= 0` of hundredths; with `p <= k` the call fails, and with
`k < p <= 100` it returns the floor of a float within `totalBytes / 2^50` bytes
of `(p - k)/100 * totalBytes`. -/
theorem percentMode_cases (host : Host) (stat : Statfs_t)
    (directory size percent reserve : String) (p : ℤ)
    (hpercent : percent ≠ "") (hparse : host.Atoi percent = .ok p)
    (hstat : host.getSysStatFunc directory = stat) (hT : 0 < stat.allBytes) (hp : p ≤ 100) :
    ∃ (x : ℚ) (k : ℤ), 0 ≤ k ∧ k = roundHalfEven (x * 100) ∧
      x * 100 - 1 / 2 ≤ k ∧ (k : ℚ) ≤ x * 100 + 1 / 2 ∧
      usedRatio stat - 5 * usedRatio stat / 2 ^ 53 ≤ x ∧
      x ≤ usedRatio stat + 5 * usedRatio stat / 2 ^ 53 ∧
      usedPercentage stat = ofRat ((k : ℚ) / 100) ∧
      (p ≤ k → calculateFileSize host directory size percent reserve
        = .error (GoError.AlreadyExceeded (usedPercentage stat))) ∧
      (k < p → ∃ V : ℚ, 0 ≤ V ∧
        calculateFileSize host directory size percent reserve = .ok (toString ⌊V⌋.toNat) ∧
        ((p : ℚ) - k) / 100 * stat.allBytes - stat.allBytes / 2 ^ 50 ≤ V * 1048576 ∧
        V * 1048576 ≤ ((p : ℚ) - k) / 100 * stat.allBytes + stat.allBytes / 2 ^ 50) := by
  obtain ⟨x, k, hx0, hx1, hx2, hk1, hk2, hkdef, hk0, hkub, hU⟩ := usedHundredths_spec stat hT
  have heq := percentMode_eq host directory size percent reserve p hpercent hparse
  rw [hstat] at heq
  refine ⟨x, k, hk0, hkdef, hk1, hk2, hx1, hx2, hU, ?_, ?_⟩
  · intro hpk
    rw [heq, if_pos (ge_of_hundredths stat p k hk0 hkub hU hp hpk)]
  · intro hkp
    obtain ⟨hge, V, hV0, hcalc, hV1, hV2⟩ := size_core stat p k hT hk0 hkp hp hU
    refine ⟨V, hV0, ?_, hV1, hV2⟩
    rw [heq, if_neg (by simp [hge]), hcalc, fmt0_floor V hV0]

/-! ## Part 2 : facts about the calls made -/

/-- Reading a number leaves a suffix of the format. -/
theorem parsenum_length : ∀ (s : List Char) (num : ℕ) (isnum : Bool),
    (parsenum s num isnum).2.2.length ≤ s.length
  | [], _, _ => by simp [parsenum]
  | c :: cs, num, isnum => by
    unfold parsenum
    split_ifs
    · simp
    · exact le_trans (parsenum_length cs _ _) (by simp)
    · simp

/-- Reading an index leaves a suffix of the format. -/
theorem argNumber_length (s : List Char) (good : Bool) :
    (argNumber s good).1.length ≤ s.length := by
  unfold argNumber
  split_ifs <;> simp

/-- Reading a width leaves a suffix of the format. -/
theorem readWidth_length (a : List Char × Bool × Bool) :
    (readWidth a).1.length ≤ a.1.length := by
  unfold readWidth
  split_ifs
  · simp
  · exact parsenum_length _ _ _

/-- Reading a precision leaves a suffix of the format. -/
theorem readPrecision_length (w : List Char × Bool × Bool × List Char) :
    (readPrecision w).1.length ≤ w.1.length := by
  have hd : (w.1.drop 1).length ≤ w.1.length := by simp
  unfold readPrecision
  split_ifs
  · exact le_trans (List.length_drop 1 _ ▸ Nat.sub_le _ 1)
      (le_trans (argNumber_length _ _) hd)
  · exact le_trans (parsenum_length _ _ _) (le_trans (argNumber_length _ _) hd)
  · exact le_rfl

/-- Writing the verb leaves a suffix of the format. -/
theorem writeVerb_length (out : List Char) (good : Bool) (s : List Char) :
    (writeVerb out good s).2.length ≤ s.length := by
  cases s with
  | nil => simp [writeVerb]
  | cons v r =>
    unfold writeVerb
    by_cases hv : v = '%'
    · simp [hv]
    · cases good <;> simp [hv]

/-- One verb leaves a suffix of the format. -/
theorem printVerb_length (s : List Char) : (printVerb s).2.length ≤ s.length := by
  have h1 : (s.dropWhile
      (fun c => c == '#' || c == '0' || c == '+' || c == '-' || c == ' ')).length ≤ s.length :=
    (List.dropWhile_sublist _).length_le
  unfold printVerb
  simp only
  refine le_trans (writeVerb_length _ _ _) ?_
  have h2 := le_trans (readPrecision_length _) (le_trans (readWidth_length _)
    (le_trans (argNumber_length (s.dropWhile
      (fun c => c == '#' || c == '0' || c == '+' || c == '-' || c == ' ')) true) h1))
  split_ifs
  · exact h2
  · exact le_trans (argNumber_length _ _) h2

/-- More fuel than the length of the format changes nothing: `doPrintf` reaches
the end of the format. -/
theorem doPrintf_fuel : ∀ (fuel : ℕ) (s : List Char), s.length ≤ fuel →
    doPrintf fuel s = doPrintf s.length s
  | 0, s, h => by
    have : s = [] := List.eq_nil_of_length_eq_zero (by omega)
    subst this; rfl
  | fuel + 1, [], _ => by simp [doPrintf]
  | fuel + 1, c :: cs, h => by
    have hl : cs.length ≤ fuel := by simpa using h
    have hv := printVerb_length cs
    simp only [doPrintf, List.length_cons]
    split_ifs
    · rw [doPrintf_fuel fuel _ (le_trans hv hl), doPrintf_fuel cs.length _ hv]
    · rw [doPrintf_fuel fuel cs hl]

/-- A format without `%` is copied. -/
theorem doPrintf_of_no_percent : ∀ (fuel : ℕ) (s : List Char), s.length ≤ fuel → '%' ∉ s →
    doPrintf fuel s = s
  | 0, s, h, _ => by
    have : s = [] := List.eq_nil_of_length_eq_zero (by omega)
    subst this; rfl
  | fuel + 1, [], _, _ => by simp [doPrintf]
  | fuel + 1, c :: cs, h, hp => by
    have hl : cs.length ≤ fuel := by simpa using h
    have hc : ¬ c = '%' := fun e => hp (by simp [e])
    have hcs : '%' ∉ cs := fun e => hp (by simp [e])
    simp only [doPrintf, hc, if_false]
    rw [doPrintf_of_no_percent fuel cs hl hcs]

/-- The message of `fmt.Errorf` on a text without `%` is the text. -/
theorem Errorf_of_no_percent (s : String) (h : '%' ∉ s.data) : Errorf s = s := by
  unfold Errorf
  have hfmt : doPrintf s.length s.data = s.data :=
    doPrintf_of_no_percent s.length s.data (le_of_eq rfl) h
  rw [hfmt]

/-- The message of `fmt.Errorf` on a text with a `%`: the characters after it are
read as a verb without operand. -/
theorem Errorf_percent_example :
    Errorf "dd: disk 100% full" = "dd: disk 100%!f(MISSING)ull" := by decide

/-- The calls of `stopFill` on a non-empty directory: the kills, then the removal
when the file exists. -/
theorem stopFill_events (that : FillDisk) (host : OsHost) (directory : String)
    (tr : List Event) (hdir : directory ≠ "") :
    stopFill that host directory tr =
      if host.IsExist (tr ++ killEvents that host tr) (host.pathJoin directory fillDataFile) then
        (if (that.Channel.Run (tr ++ killEvents that host tr) (some host.fillDiskBin) "rm"
              (rmArgs (host.pathJoin directory fillDataFile))).Success
          then none
          else some (GoError.CommandFailed (Errorf
            (that.Channel.Run (tr ++ killEvents that host tr) (some host.fillDiskBin) "rm"
              (rmArgs (host.pathJoin directory fillDataFile))).Err)),
          killEvents that host tr ++ [Event.Run Caller.stopFill (some host.fillDiskBin) "rm"
            (rmArgs (host.pathJoin directory fillDataFile))])
      else (none, killEvents that host tr) := by
  simp only [stopFill, hdir, if_false, killEvents, ge_iff_le, Nat.zero_le, or_true, if_true,
    List.append_assoc]
  split_ifs <;> simp_all

/-- Every call of `stopFill` is labelled with it. -/
theorem stopFill_callers (that : FillDisk) (host : OsHost) (directory : String)
    (tr : List Event) : ∀ e ∈ (stopFill that host directory tr).2, e.caller = Caller.stopFill := by
  by_cases hdir : directory = ""
  · simp [stopFill, hdir]
  · rw [stopFill_events that host directory tr hdir]
    split_ifs <;> simp [killEvents, Event.caller]

/-- Every call of `fillDiskByDD` is labelled with it. -/
theorem fillDiskByDD_callers (that : FillDisk) (dataFile directory size : String)
    (tr : List Event) :
    ∀ e ∈ (fillDiskByDD that dataFile directory size tr).2, e.caller = Caller.fillDiskByDD := by
  unfold fillDiskByDD
  simp only
  split_ifs <;> simp [Event.caller]

/-- The one call of `fillDiskByFallocate`. -/
theorem fillDiskByFallocate_events (that : FillDisk) (size dataFile : String)
    (tr : List Event) :
    (fillDiskByFallocate that size dataFile tr).2
      = [Event.Run Caller.fillDiskByFallocate none "fallocate" (fallocateArgs size dataFile)] := by
  unfold fillDiskByFallocate
  simp only
  split_ifs <;> rfl

/-- The fill strategy by cases: `fallocate` available or not, successful or not. -/
theorem fillStrategy_eq (that : FillDisk) (dataFile directory size : String) (tr : List Event) :
    fillStrategy that dataFile directory size tr =
      if that.Channel.IsCommandAvailable tr "fallocate" then
        if (fillDiskByFallocate that size dataFile
            (tr ++ [Event.IsCommandAvailable Caller.startFill "fallocate"])).1.Success then
          ((fillDiskByFallocate that size dataFile
              (tr ++ [Event.IsCommandAvailable Caller.startFill "fallocate"])).1,
            [Event.IsCommandAvailable Caller.startFill "fallocate",
              Event.Run Caller.fillDiskByFallocate none "fallocate"
                (fallocateArgs size dataFile)])
        else
          ((fillDiskByDD that dataFile directory size
              (tr ++ [Event.IsCommandAvailable Caller.startFill "fallocate",
                Event.Run Caller.fillDiskByFallocate none "fallocate"
                  (fallocateArgs size dataFile)])).1,
            [Event.IsCommandAvailable Caller.startFill "fallocate",
              Event.Run Caller.fillDiskByFallocate none "fallocate"
                (fallocateArgs size dataFile)]
              ++ (fillDiskByDD that dataFile directory size
                (tr ++ [Event.IsCommandAvailable Caller.startFill "fallocate",
                  Event.Run Caller.fillDiskByFallocate none "fallocate"
                    (fallocateArgs size dataFile)])).2)
      else
        ((fillDiskByDD that dataFile directory size
            (tr ++ [Event.IsCommandAvailable Caller.startFill "fallocate"])).1,
          [Event.IsCommandAvailable Caller.startFill "fallocate"]
            ++ (fillDiskByDD that dataFile directory size
              (tr ++ [Event.IsCommandAvailable Caller.startFill "fallocate"])).2) := by
  unfold fillStrategy
  by_cases havail : that.Channel.IsCommandAvailable tr "fallocate" = true
  · by_cases hs : (fillDiskByFallocate that size dataFile
        (tr ++ [Event.IsCommandAvailable Caller.startFill "fallocate"])).1.Success = true
    · simp [havail, hs, fillDiskByFallocate_events]
    · simp [havail, hs, fillDiskByFallocate_events]
  · simp [havail]

/-- The calls of the fill strategy come from `startFill` and the two fillers. -/
theorem fillStrategy_callers (that : FillDisk) (dataFile directory size : String)
    (tr : List Event) :
    ∀ e ∈ (fillStrategy that dataFile directory size tr).2,
      e.caller = Caller.startFill ∨ e.caller = Caller.fillDiskByFallocate
        ∨ e.caller = Caller.fillDiskByDD := by
  intro e he
  rw [fillStrategy_eq] at he
  split_ifs at he
  · simp only [List.mem_cons, List.mem_singleton, List.not_mem_nil, or_false] at he
    rcases he with h | h <;> subst h <;> simp [Event.caller]
  · simp only [List.mem_append, List.mem_cons, List.mem_singleton, List.not_mem_nil,
      or_false] at he
    rcases he with (h | h) | h
    · subst h; simp [Event.caller]
    · subst h; simp [Event.caller]
    · right; right; exact fillDiskByDD_callers _ _ _ _ _ _ h
  · simp only [List.mem_append, List.mem_singleton] at he
    rcases he with h | h
    · subst h; simp [Event.caller]
    · right; right; exact fillDiskByDD_callers _ _ _ _ _ _ h

/-- The calls of `startFill` once the size is known: those of the fill strategy,
then the spawn of the holder or the calls of `stopFill`. -/
theorem startFill_eq (that : FillDisk) (host : OsHost)
    (directory size percent reserve sz : String) (retainHandle : Bool) (tr : List Event)
    (hdir : directory ≠ "") (hspec : ¬ (size = "" ∧ percent = "" ∧ reserve = ""))
    (hcalc : calculateFileSize host.toHost directory size percent reserve = .ok sz) :
    startFill that host directory size percent reserve retainHandle tr =
      if (fillStrategy that (host.pathJoin directory fillDataFile) directory sz tr).1.Success then
        (.ok (fillStrategy that (host.pathJoin directory fillDataFile) directory sz tr).1.Result,
          (fillStrategy that (host.pathJoin directory fillDataFile) directory sz tr).2
            ++ (if retainHandle then
              (startRetainProcess that host directory
                (tr ++ (fillStrategy that (host.pathJoin directory fillDataFile)
                  directory sz tr).2)).2
              else []))
      else
        (.error (GoError.CommandFailed (Errorf
            (fillStrategy that (host.pathJoin directory fillDataFile) directory sz tr).1.Err)),
          (fillStrategy that (host.pathJoin directory fillDataFile) directory sz tr).2
            ++ (stopFill that host directory
              (tr ++ (fillStrategy that (host.pathJoin directory fillDataFile)
                directory sz tr).2)).2) := by
  unfold startFill
  simp only [hdir, if_false, hspec, hcalc]
  split_ifs <;> simp

/-- Every call of `startRetainProcess` is labelled with it. -/
theorem startRetainProcess_callers (that : FillDisk) (host : OsHost) (directory : String)
    (tr : List Event) :
    ∀ e ∈ (startRetainProcess that host directory tr).2,
      e.caller = Caller.startRetainProcess := by
  simp [startRetainProcess, Event.caller]

/-- The `dd` fallback is part of a start exactly when the fill strategy ran it. -/
theorem startFill_ranDD_iff (that : FillDisk) (host : OsHost)
    (directory size percent reserve sz : String) (retainHandle : Bool) (tr : List Event)
    (hdir : directory ≠ "") (hspec : ¬ (size = "" ∧ percent = "" ∧ reserve = ""))
    (hcalc : calculateFileSize host.toHost directory size percent reserve = .ok sz) :
    (∃ e ∈ (startFill that host directory size percent reserve retainHandle tr).2,
        e.caller = Caller.fillDiskByDD) ↔
      (∃ e ∈ (fillStrategy that (host.pathJoin directory fillDataFile) directory sz tr).2,
        e.caller = Caller.fillDiskByDD) := by
  rw [startFill_eq that host directory size percent reserve sz retainHandle tr hdir hspec hcalc]
  constructor
  · rintro ⟨e, he, hc⟩
    split_ifs at he with h1 h2
    · simp only [List.mem_append] at he
      rcases he with he | he
      · exact ⟨e, he, hc⟩
      · have := startRetainProcess_callers _ _ _ _ e he
        rw [this] at hc; cases hc
    · simp only [List.append_nil] at he
      exact ⟨e, he, hc⟩
    · simp only [List.mem_append] at he
      rcases he with he | he
      · exact ⟨e, he, hc⟩
      · have := stopFill_callers _ _ _ _ e he
        rw [this] at hc; cases hc
  · rintro ⟨e, he, hc⟩
    refine ⟨e, ?_, hc⟩
    split_ifs <;> simp [he]

/-- The first call of `fillDiskByDD` is the one-block test. -/
theorem fillDiskByDD_first (that : FillDisk) (dataFile directory size : String)
    (tr : List Event) :
    (fillDiskByDD that dataFile directory size tr).2.head?
      = some (Event.Run Caller.fillDiskByDD none "dd" (ddTestArgs dataFile)) := by
  unfold fillDiskByDD
  simp only
  split_ifs <;> rfl

/-- The events of the fill strategy contain a `dd` call exactly when `fallocate`
is unavailable or failed with another error than a full disk. -/
theorem fillStrategy_ranDD_iff (that : FillDisk) (dataFile directory size : String)
    (tr : List Event) :
    (∃ e ∈ (fillStrategy that dataFile directory size tr).2, e.caller = Caller.fillDiskByDD) ↔
      (that.Channel.IsCommandAvailable tr "fallocate" = false ∨
        ((that.Channel.Run (tr ++ [Event.IsCommandAvailable Caller.startFill "fallocate"])
            none "fallocate" (fallocateArgs size dataFile)).Success = false ∧
          stringsContains
            (that.Channel.Run (tr ++ [Event.IsCommandAvailable Caller.startFill "fallocate"])
              none "fallocate" (fallocateArgs size dataFile)).Err
            diskFillErrorMessage = false)) := by
  have hdd : ∀ t, ∃ e ∈ (fillDiskByDD that dataFile directory size t).2,
      e.caller = Caller.fillDiskByDD := by
    intro t
    have h := fillDiskByDD_first that dataFile directory size t
    cases hl : (fillDiskByDD that dataFile directory size t).2 with
    | nil => rw [hl] at h; simp at h
    | cons a l =>
      refine ⟨a, by simp, ?_⟩
      exact fillDiskByDD_callers that dataFile directory size t a (by rw [hl]; simp)
  have hfs : (fillDiskByFallocate that size dataFile
        (tr ++ [Event.IsCommandAvailable Caller.startFill "fallocate"])).1.Success = true ↔
      ¬ ((that.Channel.Run (tr ++ [Event.IsCommandAvailable Caller.startFill "fallocate"])
            none "fallocate" (fallocateArgs size dataFile)).Success = false ∧
          stringsContains
            (that.Channel.Run (tr ++ [Event.IsCommandAvailable Caller.startFill "fallocate"])
              none "fallocate" (fallocateArgs size dataFile)).Err
            diskFillErrorMessage = false) := by
    unfold fillDiskByFallocate
    simp only
    split_ifs with h1 h2
    · simp [h1]
    · simp [h2, ReturnSuccess]
    · simp [h1, h2, ReturnFail]
  rw [fillStrategy_eq]
  by_cases havail : that.Channel.IsCommandAvailable tr "fallocate" = true
  · simp only [havail, if_true, Bool.true_eq_false, false_or]
    by_cases hs : (fillDiskByFallocate that size dataFile
        (tr ++ [Event.IsCommandAvailable Caller.startFill "fallocate"])).1.Success = true
    · simp only [hs, if_true]
      constructor
      · rintro ⟨e, he, hc⟩
        simp only [List.mem_cons, List.mem_singleton, List.not_mem_nil, or_false] at he
        rcases he with h | h <;> subst h <;> simp [Event.caller] at hc
      · intro h
        exact absurd h (hfs.mp hs)
    · simp only [hs, if_false]
      constructor
      · intro _
        by_contra hcon
        exact hs (hfs.mpr hcon)
      · intro _
        obtain ⟨e, he, hc⟩ := hdd (tr ++ [Event.IsCommandAvailable Caller.startFill "fallocate",
          Event.Run Caller.fillDiskByFallocate none "fallocate" (fallocateArgs size dataFile)])
        exact ⟨e, by simp [he], hc⟩
  · have hf : that.Channel.IsCommandAvailable tr "fallocate" = false := by simpa using havail
    rw [if_neg havail]
    constructor
    · intro _
      exact Or.inl hf
    · intro _
      obtain ⟨e, he, hc⟩ := hdd (tr ++ [Event.IsCommandAvailable Caller.startFill "fallocate"])
      exact ⟨e, by simp [he], hc⟩

/-- When the fill strategy ran `dd`, its response is the one of `dd`. -/
theorem fillStrategy_response_of_ranDD (that : FillDisk) (dataFile directory size : String)
    (tr : List Event)
    (h : ∃ e ∈ (fillStrategy that dataFile directory size tr).2,
      e.caller = Caller.fillDiskByDD) :
    (fillStrategy that dataFile directory size tr).1
      = (fillDiskByDD that dataFile directory size
          (tr ++ Event.IsCommandAvailable Caller.startFill "fallocate" ::
            (if that.Channel.IsCommandAvailable tr "fallocate" then
              [Event.Run Caller.fillDiskByFallocate none "fallocate"
                (fallocateArgs size dataFile)]
            else []))).1 := by
  rw [fillStrategy_eq] at h ⊢
  by_cases havail : that.Channel.IsCommandAvailable tr "fallocate" = true
  · rw [if_pos havail] at h ⊢
    rw [if_pos havail]
    by_cases hs : (fillDiskByFallocate that size dataFile
        (tr ++ [Event.IsCommandAvailable Caller.startFill "fallocate"])).1.Success = true
    · rw [if_pos hs] at h
      obtain ⟨e, he, hc⟩ := h
      simp only [List.mem_cons, List.mem_singleton, List.not_mem_nil, or_false] at he
      rcases he with h | h <;> subst h <;> simp [Event.caller] at hc
    · rw [if_neg hs]
  · rw [if_neg havail, if_neg havail]

/-- A failed `fallocate` whose error text reports a full disk counts as success. -/
theorem fillDiskByFallocate_full (that : FillDisk) (size dataFile : String) (tr : List Event)
    (hfail : (that.Channel.Run tr none "fallocate" (fallocateArgs size dataFile)).Success
      = false)
    (hfull : stringsContains
      (that.Channel.Run tr none "fallocate" (fallocateArgs size dataFile)).Err
      diskFillErrorMessage = true) :
    (fillDiskByFallocate that size dataFile tr).1
      = ReturnSuccess ("success because of " ++ diskFillErrorMessage) := by
  simp [fillDiskByFallocate, hfail, hfull]

/-! ## The claims -/

/-- Counterexample to C1, three inputs with `r < availableMB`.  With
`2^60 + 2^20 - 1` bytes available and a reserve of 0 the size is
`1099511627777`, one more than `floor(availableBytes / 1048576 - 0)`, because
`float64(availableBytes)` is rounded.  With 3 MiB available and a reserve of
`10^-18` the size is 3 and not 2, because the subtraction is rounded.  With
3 MiB available and a reserve of `-2^60` the size is `2^60`, three less than the
floor of the exact difference. -/
theorem calculateFileSize_reserve_counterexample :
    ((⟨1152921504607895551, 1152921504607895551, 1⟩ : Statfs_t).availableBytes
        = 1152921504607895551 ∧
      decimalParseFloat "0" = .ok (Float64.fin 0) ∧
      (0 : ℚ) < exactAvailableMB ⟨1152921504607895551, 1152921504607895551, 1⟩ ∧
      ⌊exactAvailableMB ⟨1152921504607895551, 1152921504607895551, 1⟩ - 0⌋ = 1099511627776 ∧
      calculateFileSize (hostOf ⟨1152921504607895551, 1152921504607895551, 1⟩)
        "/data" "" "" "0" = .ok "1099511627777") ∧
    (exactAvailableMB ⟨768, 768, 4096⟩ = 3 ∧
      decimalParseFloat "0.000000000000000001"
        = .ok (Float64.fin (1298074214633707 / 1298074214633706907132624082305024)) ∧
      (1298074214633707 / 1298074214633706907132624082305024 : ℚ) < 3 ∧
      ⌊(3 : ℚ) - 1298074214633707 / 1298074214633706907132624082305024⌋ = 2 ∧
      calculateFileSize (hostOf ⟨768, 768, 4096⟩) "/data" "" "" "0.000000000000000001"
        = .ok "3") ∧
    (decimalParseFloat "-1152921504606846976" = .ok (Float64.fin (-1152921504606846976)) ∧
      ⌊(3 : ℚ) - (-1152921504606846976)⌋ = 1152921504606846979 ∧
      calculateFileSize (hostOf ⟨768, 768, 4096⟩) "/data" "" "" "-1152921504606846976"
        = .ok "1152921504606846976") := by
  refine ⟨⟨?_, ?_, ?_, ?_, ?_⟩, ⟨?_, ?_, ?_, ?_, ?_⟩, ⟨?_, ?_, ?_⟩⟩ <;> decide!

/-- C1, amended. Reserve mode of `calculateFileSize` (percent empty, reserve
parses to `r`) on a stat with fewer than `2^53` available bytes, with
`availableMB = availableBytes / 1048576` exactly.  If `r >= availableMB` the call
fails with the available-size error and no size.  If `-2^52 <= r < availableMB`
it succeeds with the rendering of `floor(availableMB - r)` or of that floor plus
one.  If moreover `r` is a whole number of `2^-20` MB, such as a whole number of
MB, the size is `floor(availableMB - r)` exactly. -/
theorem calculateFileSize_reserve (host : Host) (stat : Statfs_t)
    (directory size reserve : String) (r : Float64)
    (hreserve : reserve ≠ "") (hparse : host.ParseFloat reserve = .ok r)
    (hstat : host.getSysStatFunc directory = stat) (hav : stat.availableBytes < 2 ^ 53) :
    ((r = Float64.posInf ∨ ∃ q : ℚ, r = Float64.fin q ∧ exactAvailableMB stat ≤ q) →
      calculateFileSize host directory size "" reserve
        = .error (GoError.InsufficientSpace (Float64.fin (exactAvailableMB stat)))) ∧
    (∀ q : ℚ, r = Float64.fin q → q < exactAvailableMB stat → -(2 : ℚ) ^ 52 ≤ q →
      ∃ n : ℕ, calculateFileSize host directory size "" reserve = .ok (toString n) ∧
        ((n : ℤ) = ⌊exactAvailableMB stat - q⌋ ∨ (n : ℤ) = ⌊exactAvailableMB stat - q⌋ + 1)) ∧
    (∀ (q : ℚ) (m : ℕ), r = Float64.fin q → q < exactAvailableMB stat →
      q = (m : ℚ) / 1048576 →
      calculateFileSize host directory size "" reserve
        = .ok (toString ⌊exactAvailableMB stat - q⌋.toNat)) := by
  have heq := reserveMode_eq host directory size reserve r hreserve hparse
  rw [hstat, availableMB_exact _ hav] at heq
  unfold exactAvailableMB
  refine ⟨?_, ?_, ?_⟩
  · rintro (h | ⟨q, h, hle⟩)
    · subst h
      rw [heq]
      simp [Float64.le]
    · subst h
      rw [heq]
      simp [Float64.le, hle]
  · intro q hr hlt hlo
    subst hr
    obtain ⟨d, hd, hd0, hf1, hf2⟩ := reserve_floor stat.availableBytes q hav hlo hlt
    have hsub : Float64.sub (Float64.fin ((stat.availableBytes : ℚ) / 1048576)) (Float64.fin q)
        = Float64.fin d := by
      simp only [Float64.sub]
      exact hd
    have hnle : ¬ Float64.le (Float64.fin ((stat.availableBytes : ℚ) / 1048576)) (Float64.fin q)
        = true := by
      simp [Float64.le, hlt]
    rw [heq, if_neg hnle, hsub, fmt0_floor d hd0]
    refine ⟨⌊d⌋.toNat, rfl, ?_⟩
    have hdn : 0 ≤ ⌊d⌋ := Int.floor_nonneg.mpr hd0
    have : ((⌊d⌋.toNat : ℕ) : ℤ) = ⌊d⌋ := Int.toNat_of_nonneg hdn
    omega
  · intro q m hr hlt hq
    subst hr
    subst hq
    have hx := reserve_exact stat.availableBytes m hav hlt
    have hsub : Float64.sub (Float64.fin ((stat.availableBytes : ℚ) / 1048576))
        (Float64.fin ((m : ℚ) / 1048576))
        = Float64.fin ((stat.availableBytes : ℚ) / 1048576 - (m : ℚ) / 1048576) := by
      simp only [Float64.sub]
      exact hx
    have hnle : ¬ Float64.le (Float64.fin ((stat.availableBytes : ℚ) / 1048576))
        (Float64.fin ((m : ℚ) / 1048576)) = true := by
      simp [Float64.le, hlt]
    rw [heq, if_neg hnle, hsub, fmt0_floor _ (by linarith)]

/-- Witness of C1: 25.5 MB available and a reserve of 7 MB give the size 18. -/
theorem calculateFileSize_reserve_witness :
    calculateFileSize (hostOf ⟨12800, 6528, 4096⟩) "/data" "" "" "7" = .ok "18" :=
  ((calculateFileSize_reserve (hostOf ⟨12800, 6528, 4096⟩) ⟨12800, 6528, 4096⟩ "/data" "" "7"
    (Float64.fin 7) (by decide) (by decide!) rfl (by decide!)).2.2 7 7340032 rfl (by decide!)
    (by decide!)).trans (by decide!)

/-- Counterexample to C2.  On an empty filesystem of 100 MiB with `p = 29` the
formula gives `floor((0.29 - 0.00) * 104857600 / 1048576) = 29`, and the call
returns 28: the float nearest to 0.29 is below 0.29.  On an empty filesystem of
1000 MiB with `p = 10^17 + 1` the formula gives `10^18 + 10`, and the call
returns `10^18`. -/
theorem calculateFileSize_percent_counterexample :
    ((⟨25600, 25600, 4096⟩ : Statfs_t).allBytes = 104857600 ∧
      (⟨25600, 25600, 4096⟩ : Statfs_t).availableBytes = 104857600 ∧
      (⟨25600, 25600, 4096⟩ : Statfs_t).usedBytes = 0 ∧
      ⌊((29 : ℚ) / 100 - 0 / 100) * 104857600 / 1048576⌋ = 29 ∧
      calculateFileSize (hostOf ⟨25600, 25600, 4096⟩) "/data" "" "29" "" = .ok "28") ∧
    ((⟨256000, 256000, 4096⟩ : Statfs_t).allBytes = 1048576000 ∧
      (⟨256000, 256000, 4096⟩ : Statfs_t).availableBytes = 1048576000 ∧
      (⟨256000, 256000, 4096⟩ : Statfs_t).usedBytes = 0 ∧
      ⌊((100000000000000001 : ℚ) / 100 - 0 / 100) * 1048576000 / 1048576⌋
        = 1000000000000000010 ∧
      calculateFileSize (hostOf ⟨256000, 256000, 4096⟩) "/data" "" "100000000000000001" ""
        = .ok "1000000000000000000") := by
  refine ⟨⟨?_, ?_, ?_, ?_, ?_⟩, ⟨?_, ?_, ?_, ?_, ?_⟩⟩ <;> decide!

/-- C2, amended. Percent mode of `calculateFileSize` (percent parses to
`p <= 100`, total bytes positive, available bytes at most the total).  The usage
is rounded to `k` hundredths, at most `0.005 + 2^-50` from `usedBytes/totalBytes`
and at most `0.005` on a total of at most `2^43` bytes; `usedPercentage` is the
float of `k/100`.  The call fails with the already-exceeded error exactly when
`k >= p`.  Otherwise it returns `floor(V)` for a `V` at most
`totalBytes / 1048576 / 2^50` from `X = (p/100 - k/100) * totalBytes / 1048576`,
so within one of `floor(X)`; on a total of at most `2^43` bytes the size is
`floor(X)`, or `X - 1` when `X` is a whole number. -/
theorem calculateFileSize_percent (host : Host) (stat : Statfs_t)
    (directory size percent reserve : String) (p : ℤ)
    (hpercent : percent ≠ "") (hparse : host.Atoi percent = .ok p)
    (hstat : host.getSysStatFunc directory = stat) (hT : 0 < stat.allBytes)
    (hav : stat.availableBytes ≤ stat.allBytes) (hp : p ≤ 100) :
    ∃ k : ℤ, 0 ≤ k ∧
      |(k : ℚ) / 100 - usedRatio stat| ≤ 1 / 200 + 1 / 2 ^ 50 ∧
      (stat.allBytes ≤ 2 ^ 43 → |(k : ℚ) / 100 - usedRatio stat| ≤ 1 / 200) ∧
      usedPercentage stat = Float64.ofRat ((k : ℚ) / 100) ∧
      (calculateFileSize host directory size percent reserve
          = .error (GoError.AlreadyExceeded (usedPercentage stat)) ↔ p ≤ k) ∧
      (k < p → ∃ V : ℚ, 0 ≤ V ∧
        calculateFileSize host directory size percent reserve = .ok (toString ⌊V⌋.toNat) ∧
        |V - exactSizeMB stat p k| ≤ (stat.allBytes : ℚ) / 1048576 / 2 ^ 50 ∧
        ⌊exactSizeMB stat p k⌋ - 1 ≤ ⌊V⌋ ∧ ⌊V⌋ ≤ ⌊exactSizeMB stat p k⌋ + 1 ∧
        (stat.allBytes ≤ 2 ^ 43 →
          ⌊V⌋ = ⌊exactSizeMB stat p k⌋ ∨ exactSizeMB stat p k = (⌊V⌋ : ℚ) + 1)) := by
  obtain ⟨x, k, hk0, hkdef, hk1, hk2, hx1, hx2, hU, herr, hok⟩ :=
    percentMode_cases host stat directory size percent reserve p hpercent hparse hstat hT hp
  obtain ⟨hxz1, hxz2⟩ := quotient_scaled stat x hT hx1 hx2
  have ht : (0 : ℚ) < stat.allBytes := by exact_mod_cast hT
  have htl : (stat.allBytes : ℚ) < 2 ^ 64 := by exact_mod_cast allBytes_lt stat
  have hu1 := usedRatio_le_one stat hT hav
  have hu0 : 0 ≤ usedRatio stat := by unfold usedRatio; positivity
  have hzT : stat.usedBytes ≤ stat.allBytes := by
    rw [usedBytes_of_le stat hav]
    exact Nat.sub_le _ _
  refine ⟨k, hk0, ?_, ?_, hU, ?_, ?_⟩
  · rw [abs_le]
    have e5 : (5 : ℚ) * usedRatio stat / 2 ^ 53 ≤ 5 / 2 ^ 53 := by
      apply div_le_div_of_nonneg_right _ (by positivity); linarith
    have e : (5 : ℚ) / 2 ^ 53 ≤ 1 / 2 ^ 50 := by norm_num
    constructor <;> linarith
  · intro hTs
    have hn := nearest_of_small stat.usedBytes stat.allBytes x k hTs hzT hxz1 hxz2 hk1 hk2
    rw [abs_le] at hn ⊢
    have hut : usedRatio stat * stat.allBytes = stat.usedBytes := div_mul_cancel₀ _ ht.ne'
    constructor
    · rw [le_sub_iff_add_le]
      have key : (-(1 / 200) + usedRatio stat) * stat.allBytes ≤ (k : ℚ) / 100 * stat.allBytes := by
        have e : (-(1 / 200) + usedRatio stat) * stat.allBytes
            = -(1 / 200) * stat.allBytes + usedRatio stat * stat.allBytes := by ring
        rw [e, hut]
        linarith
      exact le_of_mul_le_mul_right key ht
    · rw [sub_le_iff_le_add]
      have key : (k : ℚ) / 100 * stat.allBytes ≤ (1 / 200 + usedRatio stat) * stat.allBytes := by
        have e : (1 / 200 + usedRatio stat) * stat.allBytes
            = 1 / 200 * stat.allBytes + usedRatio stat * stat.allBytes := by ring
        rw [e, hut]
        linarith
      exact le_of_mul_le_mul_right key ht
  · constructor
    · intro hcalc
      by_contra hcon
      push_neg at hcon
      obtain ⟨V, -, hV, -⟩ := hok hcon
      rw [hV] at hcalc
      cases hcalc
    · exact herr
  · intro hkp
    obtain ⟨V, hV0, hV, hV1, hV2⟩ := hok hkp
    have eX : exactSizeMB stat p k * 1048576 = ((p : ℚ) - k) / 100 * stat.allBytes := by
      unfold exactSizeMB
      ring
    have eN : (stat.allBytes : ℚ) / 1048576 / 2 ^ 50 * 1048576 = stat.allBytes / 2 ^ 50 := by
      ring
    have hN1 : (stat.allBytes : ℚ) / 1048576 / 2 ^ 50 < 1 := by
      rw [div_div, div_lt_iff₀ (by positivity)]
      have e : (2 : ℚ) ^ 64 ≤ 1 * (1048576 * 2 ^ 50) := by norm_num
      linarith
    have hVX1 : exactSizeMB stat p k - (stat.allBytes : ℚ) / 1048576 / 2 ^ 50 ≤ V := by linarith
    have hVX2 : V ≤ exactSizeMB stat p k + (stat.allBytes : ℚ) / 1048576 / 2 ^ 50 := by linarith
    refine ⟨V, hV0, hV, ?_, ?_, ?_, ?_⟩
    · rw [abs_le]
      constructor <;> linarith
    · rw [Int.le_floor]
      have := Int.floor_le (exactSizeMB stat p k)
      push_cast
      linarith
    · have h : ⌊V⌋ < ⌊exactSizeMB stat p k⌋ + 1 + 1 := by
        rw [Int.floor_lt]
        have := Int.lt_floor_add_one (exactSizeMB stat p k)
        push_cast
        linarith
      omega
    · intro hTs
      have hV1' : ((p - k : ℤ) : ℚ) / 100 * stat.allBytes - stat.allBytes / 2 ^ 50
          ≤ V * 1048576 := by push_cast; exact hV1
      have hV2' : V * 1048576
          ≤ ((p - k : ℤ) : ℚ) / 100 * stat.allBytes + stat.allBytes / 2 ^ 50 := by
        push_cast; exact hV2
      obtain ⟨hn1, hn2⟩ := floor_of_small stat.allBytes (p - k) ⌊V⌋ V hTs hV1' hV2'
        (Int.floor_le V) (Int.lt_floor_add_one V)
      push_cast at hn1 hn2
      have hX1 : (⌊V⌋ : ℚ) ≤ exactSizeMB stat p k := by linarith
      have hX2 : exactSizeMB stat p k ≤ (⌊V⌋ : ℚ) + 1 := by linarith
      rcases hX2.lt_or_eq with hlt | heq
      · left
        exact (Int.floor_eq_iff.mpr ⟨hX1, hlt⟩).symm
      · right
        exact heq

/-- Witness of C2: 100 MiB total, half of it used and a target of 80% give 30. -/
theorem calculateFileSize_percent_witness :
    ∃ k : ℤ, 0 ≤ k ∧
      |(k : ℚ) / 100 - usedRatio ⟨25600, 12800, 4096⟩| ≤ 1 / 200 + 1 / 2 ^ 50 ∧
      ((⟨25600, 12800, 4096⟩ : Statfs_t).allBytes ≤ 2 ^ 43 →
        |(k : ℚ) / 100 - usedRatio ⟨25600, 12800, 4096⟩| ≤ 1 / 200) ∧
      usedPercentage ⟨25600, 12800, 4096⟩ = Float64.ofRat ((k : ℚ) / 100) ∧
      (calculateFileSize (hostOf ⟨25600, 12800, 4096⟩) "/data" "" "80" ""
          = .error (GoError.AlreadyExceeded (usedPercentage ⟨25600, 12800, 4096⟩)) ↔ 80 ≤ k) ∧
      (k < 80 → ∃ V : ℚ, 0 ≤ V ∧
        calculateFileSize (hostOf ⟨25600, 12800, 4096⟩) "/data" "" "80" ""
          = .ok (toString ⌊V⌋.toNat) ∧
        |V - exactSizeMB ⟨25600, 12800, 4096⟩ 80 k|
          ≤ ((⟨25600, 12800, 4096⟩ : Statfs_t).allBytes : ℚ) / 1048576 / 2 ^ 50 ∧
        ⌊exactSizeMB ⟨25600, 12800, 4096⟩ 80 k⌋ - 1 ≤ ⌊V⌋ ∧
        ⌊V⌋ ≤ ⌊exactSizeMB ⟨25600, 12800, 4096⟩ 80 k⌋ + 1 ∧
        ((⟨25600, 12800, 4096⟩ : Statfs_t).allBytes ≤ 2 ^ 43 →
          ⌊V⌋ = ⌊exactSizeMB ⟨25600, 12800, 4096⟩ 80 k⌋
            ∨ exactSizeMB ⟨25600, 12800, 4096⟩ 80 k = (⌊V⌋ : ℚ) + 1)) :=
  calculateFileSize_percent (hostOf ⟨25600, 12800, 4096⟩) ⟨25600, 12800, 4096⟩
    "/data" "" "80" "" 80 (by decide) (by decide!) rfl (by decide!) (by decide!) (by decide)

/-- Counterexample to C3, six inputs with usage strictly below `p/100`.
With 49.6% used and `p = 50` the call fails, the usage being rounded to 0.50.
With 49% of 50 MiB used and `p = 50` the size is 0, and so it is with 2% of
100 MiB used and `p = 3`.  On a total of about 98 TB, a usage below
`p/100 - 0.005` for `p = 51` is still rounded to 0.51 and the call fails.  On a
total of about 616 TB with `p = 82` the usage after filling is further than
`0.005 + 1 MiB / total` from `p/100`.  With nothing used and `p = 10^17 + 1` it
is further than `0.005 + 1 MiB / total + 2^-49`. -/
theorem calculateFileSize_fill_counterexample :
    (0 < (⟨1000, 504, 4096⟩ : Statfs_t).allBytes ∧
      usedRatio ⟨1000, 504, 4096⟩ < (50 : ℚ) / 100 ∧
      calculateFileSize (hostOf ⟨1000, 504, 4096⟩) "/data" "" "50" ""
        = .error (GoError.AlreadyExceeded (Float64.fin (1 / 2)))) ∧
    ((⟨12800, 6528, 4096⟩ : Statfs_t).allBytes = 52428800 ∧
      usedRatio ⟨12800, 6528, 4096⟩ < (50 : ℚ) / 100 - 1 / 200 ∧
      calculateFileSize (hostOf ⟨12800, 6528, 4096⟩) "/data" "" "50" "" = .ok "0") ∧
    ((⟨25600, 25088, 4096⟩ : Statfs_t).allBytes = 104857600 ∧
      usedRatio ⟨25600, 25088, 4096⟩ < (3 : ℚ) / 100 - 1 / 200 ∧
      calculateFileSize (hostOf ⟨25600, 25088, 4096⟩) "/data" "" "3" "" = .ok "0") ∧
    ((⟨97919205042901, 48470006496236, 1⟩ : Statfs_t).allBytes = 97919205042901 ∧
      (⟨97919205042901, 48470006496236, 1⟩ : Statfs_t).usedBytes = 49449198546665 ∧
      usedRatio ⟨97919205042901, 48470006496236, 1⟩ < (51 : ℚ) / 100 - 1 / 200 ∧
      calculateFileSize (hostOf ⟨97919205042901, 48470006496236, 1⟩) "/data" "" "51" ""
        = .error (GoError.AlreadyExceeded (Float64.ofRat (51 / 100)))) ∧
    ((⟨615744833672535, 132385139239595, 1⟩ : Statfs_t).allBytes = 615744833672535 ∧
      (⟨615744833672535, 132385139239595, 1⟩ : Statfs_t).usedBytes = 483359694432940 ∧
      usedRatio ⟨615744833672535, 132385139239595, 1⟩ < (82 : ℚ) / 100 - 1 / 200 - 1 / 2 ^ 50 ∧
      calculateFileSize (hostOf ⟨615744833672535, 132385139239595, 1⟩) "/data" "" "82" ""
        = .ok "17616600" ∧
      (1 : ℚ) / 200 + 1048576 / 615744833672535
        < |((483359694432940 : ℚ) + 17616600 * 1048576) / 615744833672535 - 82 / 100|) ∧
    ((⟨256000, 256000, 4096⟩ : Statfs_t).allBytes = 1048576000 ∧
      (⟨256000, 256000, 4096⟩ : Statfs_t).usedBytes = 0 ∧
      usedRatio ⟨256000, 256000, 4096⟩ < (100000000000000001 : ℚ) / 100 - 1 / 200 ∧
      calculateFileSize (hostOf ⟨256000, 256000, 4096⟩) "/data" "" "100000000000000001" ""
        = .ok "1000000000000000000" ∧
      (1 : ℚ) / 200 + 1048576 / 1048576000 + 1 / 2 ^ 49
        < |((0 : ℚ) + 1000000000000000000 * 1048576) / 1048576000
            - 100000000000000001 / 100|) := by
  refine ⟨⟨?_, ?_, ?_⟩, ⟨?_, ?_, ?_⟩, ⟨?_, ?_, ?_⟩, ⟨?_, ?_, ?_, ?_⟩, ⟨?_, ?_, ?_, ?_, ?_⟩,
    ⟨?_, ?_, ?_, ?_, ?_⟩⟩ <;> decide!

/-- C3, amended. For every stat with positive total bytes and every percentage
`p <= 100` with `usedBytes/totalBytes < p/100 - 0.005`, and on a total above
`2^43` bytes with `usedBytes/totalBytes < p/100 - 0.005 - 2^-50`,
`calculateFileSize` in percent mode succeeds and returns the rendering of a
natural number `sizeMB`, at least 1 when the total exceeds 100 MiB, such that
`(usedBytes + sizeMB * 1 MiB) / totalBytes` is at most `0.005 + 1 MiB / totalBytes`
away from `p/100` on a total of at most `2^43` bytes, and at most `2^-49` more
than that on a larger total. -/
theorem calculateFileSize_fill_tolerance (host : Host) (stat : Statfs_t)
    (directory size percent reserve : String) (p : ℤ)
    (hpercent : percent ≠ "") (hparse : host.Atoi percent = .ok p)
    (hstat : host.getSysStatFunc directory = stat) (hT : 0 < stat.allBytes) (hp : p ≤ 100)
    (hu : usedRatio stat < (p : ℚ) / 100 - 1 / 200)
    (hbig : 2 ^ 43 < stat.allBytes → usedRatio stat < (p : ℚ) / 100 - 1 / 200 - 1 / 2 ^ 50) :
    ∃ n : ℕ, calculateFileSize host directory size percent reserve = .ok (toString n) ∧
      (104857600 < stat.allBytes → 1 ≤ n) ∧
      |((stat.usedBytes : ℚ) + n * 1048576) / stat.allBytes - p / 100|
        ≤ 1 / 200 + 1048576 / stat.allBytes + 1 / 2 ^ 49 ∧
      (stat.allBytes ≤ 2 ^ 43 →
        |((stat.usedBytes : ℚ) + n * 1048576) / stat.allBytes - p / 100|
          ≤ 1 / 200 + 1048576 / stat.allBytes) := by
  obtain ⟨x, k, hk0, hkdef, hk1, hk2, hx1, hx2, hU, -, hok⟩ :=
    percentMode_cases host stat directory size percent reserve p hpercent hparse hstat hT hp
  obtain ⟨hxz1, hxz2⟩ := quotient_scaled stat x hT hx1 hx2
  have ht : (0 : ℚ) < stat.allBytes := by exact_mod_cast hT
  have ht1 : (1 : ℚ) ≤ stat.allBytes := by exact_mod_cast hT
  have hpq : (p : ℚ) ≤ 100 := by exact_mod_cast hp
  have hzq : (stat.usedBytes : ℚ) ≤ stat.allBytes := by
    have h1 : usedRatio stat ≤ 1 := by linarith
    unfold usedRatio at h1
    rwa [div_le_one ht] at h1
  have hzT : stat.usedBytes ≤ stat.allBytes := by exact_mod_cast hzq
  have hkp : k < p := by
    by_cases hTs : stat.allBytes ≤ 2 ^ 43
    · exact hundredths_lt_of_ratio_small stat.usedBytes stat.allBytes x p k hT hTs hp hu hxz2
        hkdef
    · exact hundredths_lt_of_ratio (usedRatio stat) x p k hp (hbig (by omega)) hx2 hkdef
  obtain ⟨V, hV0, hV, hV1, hV2⟩ := hok hkp
  have hf : 0 ≤ ⌊V⌋ := Int.floor_nonneg.mpr hV0
  have hn : ((⌊V⌋.toNat : ℕ) : ℚ) = (⌊V⌋ : ℚ) := by
    have : ((⌊V⌋.toNat : ℕ) : ℤ) = ⌊V⌋ := Int.toNat_of_nonneg hf
    exact_mod_cast this
  have hkpq : (k : ℚ) ≤ (p : ℚ) - 1 := by
    have : k ≤ p - 1 := by omega
    exact_mod_cast this
  refine ⟨⌊V⌋.toNat, hV, ?_, ?_, ?_⟩
  · intro hlarge
    have hlq : (104857601 : ℚ) ≤ stat.allBytes := by
      have : 104857601 ≤ stat.allBytes := hlarge
      exact_mod_cast this
    have hV1' := one_le_size stat.allBytes k p V hlq hkpq hV1
    have h1 : (1 : ℤ) ≤ ⌊V⌋ := by
      rw [Int.le_floor]
      simpa using hV1'
    omega
  · rw [hn]
    exact tolerance_of_size stat.allBytes stat.usedBytes x k p V ⌊V⌋ ht1 hzq hxz1 hxz2 hk1 hk2
      hV1 hV2 (Int.floor_le V) (Int.lt_floor_add_one V)
  · intro hTs
    rw [hn]
    have hnear := nearest_of_small stat.usedBytes stat.allBytes x k hTs hzT hxz1 hxz2 hk1 hk2
    have hV1' : ((p - k : ℤ) : ℚ) / 100 * stat.allBytes - stat.allBytes / 2 ^ 50
        ≤ V * 1048576 := by push_cast; exact hV1
    have hV2' : V * 1048576
        ≤ ((p - k : ℤ) : ℚ) / 100 * stat.allBytes + stat.allBytes / 2 ^ 50 := by
      push_cast; exact hV2
    obtain ⟨hn1, hn2⟩ := floor_of_small stat.allBytes (p - k) ⌊V⌋ V hTs hV1' hV2'
      (Int.floor_le V) (Int.lt_floor_add_one V)
    push_cast at hn1 hn2
    exact tolerance_of_small stat.allBytes stat.usedBytes k p ⌊V⌋ ht hnear hn1 hn2

/-- Witness of C3: 100 MiB total, half of it used, and a target of 80%. -/
theorem calculateFileSize_fill_tolerance_witness :
    ∃ n : ℕ, calculateFileSize (hostOf ⟨25600, 12800, 4096⟩) "/data" "" "80" ""
        = .ok (toString n) ∧
      (104857600 < (⟨25600, 12800, 4096⟩ : Statfs_t).allBytes → 1 ≤ n) ∧
      |(((⟨25600, 12800, 4096⟩ : Statfs_t).usedBytes : ℚ) + n * 1048576)
          / (⟨25600, 12800, 4096⟩ : Statfs_t).allBytes - (80 : ℤ) / 100|
        ≤ 1 / 200 + 1048576 / (⟨25600, 12800, 4096⟩ : Statfs_t).allBytes + 1 / 2 ^ 49 ∧
      ((⟨25600, 12800, 4096⟩ : Statfs_t).allBytes ≤ 2 ^ 43 →
        |(((⟨25600, 12800, 4096⟩ : Statfs_t).usedBytes : ℚ) + n * 1048576)
            / (⟨25600, 12800, 4096⟩ : Statfs_t).allBytes - (80 : ℤ) / 100|
          ≤ 1 / 200 + 1048576 / (⟨25600, 12800, 4096⟩ : Statfs_t).allBytes) :=
  calculateFileSize_fill_tolerance (hostOf ⟨25600, 12800, 4096⟩) ⟨25600, 12800, 4096⟩
    "/data" "" "80" "" 80 (by decide) (by decide!) rfl (by decide!) (by decide) (by decide!)
    (fun h => absurd h (by decide!))

/-- C4. For every stat with positive total bytes and every integer percentage
`p` with `p/100 <= usedBytes/totalBytes`, where `usedBytes` is the difference
`totalBytes - availableBytes`, `calculateFileSize` in percent mode fails with the
already-exceeded error and returns no size.  The same holds for `p <= 100` with
the `uint64` value of `usedBytes` that the code computes, whatever the stat. -/
theorem calculateFileSize_exceeded (host : Host) (stat : Statfs_t)
    (directory size percent reserve : String) (p : ℤ)
    (hpercent : percent ≠ "") (hparse : host.Atoi percent = .ok p)
    (hstat : host.getSysStatFunc directory = stat) (hT : 0 < stat.allBytes) :
    ((p : ℚ) / 100 ≤ ((stat.allBytes : ℚ) - (stat.availableBytes : ℚ)) / stat.allBytes →
      calculateFileSize host directory size percent reserve
        = .error (GoError.AlreadyExceeded (usedPercentage stat))) ∧
    (p ≤ 100 → (p : ℚ) / 100 ≤ usedRatio stat →
      calculateFileSize host directory size percent reserve
        = .error (GoError.AlreadyExceeded (usedPercentage stat))) := by
  have ht : (0 : ℚ) < stat.allBytes := by exact_mod_cast hT
  have hz : (0 : ℚ) ≤ stat.usedBytes := Nat.cast_nonneg _
  have hu0 : 0 ≤ usedRatio stat := div_nonneg hz ht.le
  have hcode : p ≤ 100 → (p : ℚ) / 100 ≤ usedRatio stat →
      calculateFileSize host directory size percent reserve
        = .error (GoError.AlreadyExceeded (usedPercentage stat)) := by
    intro hp hle
    obtain ⟨x, k, hk0, hkdef, hk1, hk2, hx1, hx2, hU, herr, -⟩ :=
      percentMode_cases host stat directory size percent reserve p hpercent hparse hstat hT hp
    apply herr
    rcases le_or_lt p 0 with hp0 | hp0
    · omega
    · exact hundredths_ge_of_ratio (usedRatio stat) x p k hp0 hp hle hx1 hkdef
  refine ⟨?_, hcode⟩
  intro hle
  rcases le_or_lt stat.availableBytes stat.allBytes with hav | hav
  · have hused : (stat.usedBytes : ℚ) = (stat.allBytes : ℚ) - (stat.availableBytes : ℚ) := by
      rw [usedBytes_of_le stat hav]
      exact Nat.cast_sub hav
    have hr : usedRatio stat = ((stat.allBytes : ℚ) - (stat.availableBytes : ℚ)) / stat.allBytes := by
      unfold usedRatio
      rw [hused]
    have hu1 := usedRatio_le_one stat hT hav
    have hp : p ≤ 100 := by
      have : (p : ℚ) ≤ 100 := by
        rw [← hr] at hle
        linarith
      exact_mod_cast this
    exact hcode hp (by rw [hr]; exact hle)
  · have havq : (stat.allBytes : ℚ) < stat.availableBytes := by exact_mod_cast hav
    have hneg : ((stat.allBytes : ℚ) - (stat.availableBytes : ℚ)) / stat.allBytes < 0 :=
      div_neg_of_neg_of_pos (by linarith) ht
    have hpq : (p : ℚ) < 0 := by linarith
    have hp : p ≤ 100 := by
      have : p < 0 := by exact_mod_cast hpq
      omega
    exact hcode hp (by linarith)

/-- Witness of C4: exactly half used and a target of 50%. -/
theorem calculateFileSize_exceeded_witness :
    calculateFileSize (hostOf ⟨1000, 500, 4096⟩) "/data" "" "50" ""
      = .error (GoError.AlreadyExceeded (Float64.fin (1 / 2))) :=
  ((calculateFileSize_exceeded (hostOf ⟨1000, 500, 4096⟩) ⟨1000, 500, 4096⟩ "/data" "" "50" ""
    50 (by decide) (by decide!) rfl (by decide!)).1 (by decide!)).trans (by decide!)

/-- On the stat of zeros, which `getSysStatFunc` returns when `syscall.Statfs`
fails (its error is dropped), percent mode returns the text `NaN` and no error. -/
theorem calculateFileSize_zero_stat :
    calculateFileSize (hostOf ⟨0, 0, 0⟩) "/missing" "" "50" "" = .ok "NaN" := by
  decide!

/-- C5. A valid start request on a host with `fallocate` whose `fallocate` fails
with an error text containing "No space left on device": `startFill` returns no
error and the result "success because of No space left on device", and none of
its calls comes from the `dd` fallback or from `stopFill`. -/
theorem startFill_disk_full (that : FillDisk) (host : OsHost)
    (directory size percent reserve sz : String) (retainHandle : Bool) (tr : List Event)
    (hdir : directory ≠ "") (hspec : ¬ (size = "" ∧ percent = "" ∧ reserve = ""))
    (hcalc : calculateFileSize host.toHost directory size percent reserve = .ok sz)
    (havail : that.Channel.IsCommandAvailable tr "fallocate" = true)
    (hfail : (that.Channel.Run (tr ++ [Event.IsCommandAvailable Caller.startFill "fallocate"])
      none "fallocate" (fallocateArgs sz (host.pathJoin directory fillDataFile))).Success
      = false)
    (hfull : stringsContains
      (that.Channel.Run (tr ++ [Event.IsCommandAvailable Caller.startFill "fallocate"])
        none "fallocate" (fallocateArgs sz (host.pathJoin directory fillDataFile))).Err
      diskFillErrorMessage = true) :
    (startFill that host directory size percent reserve retainHandle tr).1
        = .ok "success because of No space left on device" ∧
      ∀ e ∈ (startFill that host directory size percent reserve retainHandle tr).2,
        e.caller ≠ Caller.fillDiskByDD ∧ e.caller ≠ Caller.stopFill := by
  have hf := fillDiskByFallocate_full that sz (host.pathJoin directory fillDataFile) _ hfail hfull
  have hstrat : fillStrategy that (host.pathJoin directory fillDataFile) directory sz tr
      = (ReturnSuccess ("success because of " ++ diskFillErrorMessage),
          [Event.IsCommandAvailable Caller.startFill "fallocate",
            Event.Run Caller.fillDiskByFallocate none "fallocate"
              (fallocateArgs sz (host.pathJoin directory fillDataFile))]) := by
    rw [fillStrategy_eq]
    simp [havail, hf, ReturnSuccess]
  have hmsg : "success because of " ++ diskFillErrorMessage
      = "success because of No space left on device" := by decide
  unfold startFill
  simp only [hdir, if_false, hspec, hcalc, hstrat]
  cases retainHandle <;>
    simp [ReturnSuccess, hmsg, startRetainProcess, Event.caller]

/-- Witness of C5: `fallocate` reports a full disk on a request for 100 M. -/
theorem startFill_disk_full_witness :
    (startFill (startRequest (channelFallocateFails "fallocate failed: No space left on device")
        "100" false false) (osHostOf ⟨1000, 500, 4096⟩ false) "/data" "100" "" "" false []).1
        = .ok "success because of No space left on device" ∧
      ∀ e ∈ (startFill (startRequest
          (channelFallocateFails "fallocate failed: No space left on device") "100" false false)
          (osHostOf ⟨1000, 500, 4096⟩ false) "/data" "100" "" "" false []).2,
        e.caller ≠ Caller.fillDiskByDD ∧ e.caller ≠ Caller.stopFill :=
  startFill_disk_full _ _ "/data" "100" "" "" "100" false [] (by decide) (by decide)
    (by decide) (by decide) (by decide) (by decide)

/-- Counterexample to C6: with 49.6% used and a target of 50% the size
calculation fails, `startFill` returns that error and makes no call at all,
whereas `stopFill` on the same directory would have looked up and killed
processes. -/
theorem startFill_cleanup_counterexample :
    startFill (startRequest channelAllSucceed "" false false) (osHostOf ⟨1000, 504, 4096⟩ false)
        "/data" "" "50" "" false []
      = (.error (GoError.CalculateSize (GoError.AlreadyExceeded (Float64.fin (1 / 2)))), []) ∧
    (stopFill (startRequest channelAllSucceed "" false false) (osHostOf ⟨1000, 504, 4096⟩ false)
        "/data" []).2 ≠ [] := by
  constructor
  · decide!
  · decide

/-- C6, amended. When the fill strategy fails, `startFill` runs `stopFill` on the
directory right after it, and whatever `stopFill` returns the result is an error
made from the error text of the failed fill response alone: the message that
`fmt.Errorf` makes of it, which is the text itself when it holds no `%`.  When
the size calculation fails, `startFill` returns that error at once and makes no
call. -/
theorem startFill_cleanup (that : FillDisk) (host : OsHost)
    (directory size percent reserve : String) (retainHandle : Bool) (tr : List Event)
    (hdir : directory ≠ "") (hspec : ¬ (size = "" ∧ percent = "" ∧ reserve = "")) :
    (∀ sz, calculateFileSize host.toHost directory size percent reserve = .ok sz →
      (fillStrategy that (host.pathJoin directory fillDataFile) directory sz tr).1.Success
        = false →
      (startFill that host directory size percent reserve retainHandle tr).2
        = (fillStrategy that (host.pathJoin directory fillDataFile) directory sz tr).2
            ++ (stopFill that host directory
              (tr ++ (fillStrategy that (host.pathJoin directory fillDataFile)
                directory sz tr).2)).2 ∧
      (startFill that host directory size percent reserve retainHandle tr).1
        = .error (GoError.CommandFailed (Errorf
            (fillStrategy that (host.pathJoin directory fillDataFile) directory sz tr).1.Err)) ∧
      ('%' ∉ (fillStrategy that (host.pathJoin directory fillDataFile) directory sz tr).1.Err.data →
        (startFill that host directory size percent reserve retainHandle tr).1
          = .error (GoError.CommandFailed
              (fillStrategy that (host.pathJoin directory fillDataFile) directory sz tr).1.Err))) ∧
    (∀ err, calculateFileSize host.toHost directory size percent reserve = .error err →
      startFill that host directory size percent reserve retainHandle tr
        = (.error (GoError.CalculateSize err), [])) := by
  constructor
  · intro sz hcalc hfail
    have h := startFill_eq that host directory size percent reserve sz retainHandle tr
      hdir hspec hcalc
    rw [if_neg (by simp [hfail])] at h
    refine ⟨by rw [h], by rw [h], ?_⟩
    intro hno
    rw [h, Errorf_of_no_percent _ hno]
  · intro err hcalc
    unfold startFill
    simp only [hdir, if_false, hspec, hcalc]

/-- Witness of C6: without `fallocate`, with a failing `dd` and an artifact file
whose removal fails too, the start runs the kills and the removal of `stopFill`
and still fails with the error text of `dd`. -/
theorem startFill_cleanup_witness :
    (startFill (startRequest channelAllFail "100" false false)
        (osHostOf ⟨1000, 500, 4096⟩ true) "/data" "100" "" "" false []).2
      = [Event.IsCommandAvailable Caller.startFill "fallocate",
          Event.Run Caller.fillDiskByDD none "dd"
            "if=/dev/zero of=/data/chaos_filldisk.log.dat bs=1b count=1 iflag=fullblock",
          Event.GetPidsByProcessName Caller.stopFill "chaos_filldisk.log.dat" none,
          Event.Run Caller.stopFill none "kill" "-9 ",
          Event.GetPidsByProcessName Caller.stopFill "retain-nohup" (some "chaos_filldisk"),
          Event.Run Caller.stopFill (some "chaos_filldisk") "kill" "-9 ",
          Event.Run Caller.stopFill (some "chaos_filldisk") "rm"
            "-rf /data/chaos_filldisk.log.dat"] ∧
    (startFill (startRequest channelAllFail "100" false false)
        (osHostOf ⟨1000, 500, 4096⟩ true) "/data" "100" "" "" false []).1
      = .error (GoError.CommandFailed "dd: permission denied") :=
  ⟨(((startFill_cleanup (startRequest channelAllFail "100" false false)
      (osHostOf ⟨1000, 500, 4096⟩ true) "/data" "100" "" "" false [] (by decide) (by decide)).1
        "100" (by decide) (by decide)).1).trans (by decide),
    (((startFill_cleanup (startRequest channelAllFail "100" false false)
      (osHostOf ⟨1000, 500, 4096⟩ true) "/data" "100" "" "" false [] (by decide) (by decide)).1
        "100" (by decide) (by decide)).2.2 (by decide)).trans (by decide)⟩

/-- C7. Parameter and size-computation errors have no side effects: an
invocation of `Exec` that ends with the invalid-mode error, the empty-directory
error, the missing-size error or a size-calculation error has made no call on
the channel, and neither has a `startFill` or `stopFill` that returns one of
them. -/
theorem parameter_errors_make_no_call (that : FillDisk) (host : OsHost) (tr : List Event) :
    (∀ err, (Exec that host tr).1 = Outcome.exitErr err →
      (err = GoError.InvalidMode ∨ err = GoError.MissingDirectory
        ∨ err = GoError.MissingSizeSpec ∨ ∃ cause, err = GoError.CalculateSize cause) →
      (Exec that host tr).2 = []) ∧
    (∀ directory size percent reserve retainHandle err,
      (startFill that host directory size percent reserve retainHandle tr).1 = .error err →
      (err = GoError.InvalidMode ∨ err = GoError.MissingDirectory
        ∨ err = GoError.MissingSizeSpec ∨ ∃ cause, err = GoError.CalculateSize cause) →
      (startFill that host directory size percent reserve retainHandle tr).2 = []) ∧
    (∀ directory err, (stopFill that host directory tr).1 = some err →
      (err = GoError.InvalidMode ∨ err = GoError.MissingDirectory
        ∨ err = GoError.MissingSizeSpec ∨ ∃ cause, err = GoError.CalculateSize cause) →
      (stopFill that host directory tr).2 = []) := by
  have hstart : ∀ directory size percent reserve retainHandle err,
      (startFill that host directory size percent reserve retainHandle tr).1 = .error err →
      (err = GoError.InvalidMode ∨ err = GoError.MissingDirectory
        ∨ err = GoError.MissingSizeSpec ∨ ∃ cause, err = GoError.CalculateSize cause) →
      (startFill that host directory size percent reserve retainHandle tr).2 = [] := by
    intro directory size percent reserve retainHandle err h hk
    unfold startFill at h ⊢
    by_cases hdir : directory = ""
    · simp [hdir]
    · by_cases hspec : size = "" ∧ percent = "" ∧ reserve = ""
      · simp [hdir, hspec]
      · simp only [hdir, if_false, hspec] at h ⊢
        cases hcalc : calculateFileSize host.toHost directory size percent reserve with
        | error e => simp
        | ok sz =>
          simp only [hcalc] at h ⊢
          split_ifs at h
          all_goals first
            | (simp at h; done)
            | (simp only [Except.error.injEq] at h
               subst h
               rcases hk with hk | hk | hk | ⟨c, hk⟩ <;> simp at hk)
  have hstop : ∀ directory err, (stopFill that host directory tr).1 = some err →
      (err = GoError.InvalidMode ∨ err = GoError.MissingDirectory
        ∨ err = GoError.MissingSizeSpec ∨ ∃ cause, err = GoError.CalculateSize cause) →
      (stopFill that host directory tr).2 = [] := by
    intro directory err h hk
    by_cases hdir : directory = ""
    · simp [stopFill, hdir]
    · rw [stopFill_events that host directory tr hdir] at h
      split_ifs at h
      all_goals first
        | (simp at h; done)
        | (simp only [Option.some.injEq] at h
           subst h
           rcases hk with hk | hk | hk | ⟨c, hk⟩ <;> simp at hk)
  refine ⟨?_, hstart, hstop⟩
  intro err h hk
  unfold Exec at h ⊢
  by_cases hmode : that.FillDiskStart = that.FillDiskStop
  · simp [hmode]
  · simp only [hmode, if_false] at h ⊢
    by_cases hs : that.FillDiskStart = true
    · simp only [hs, if_true] at h ⊢
      by_cases hr : that.FillDiskRetainHandle = true ∧ that.FillDiskRetainNohup = true
      · simp only [hr, and_self, if_true] at h ⊢
        cases hret : retainFileHandle that host tr <;> simp
      · simp only [hr, if_false] at h ⊢
        cases hsf : (startFill that host that.FillDiskDirectory that.FillDiskSize
            that.FillDiskPercent that.ReserveDiskSize that.FillDiskRetainHandle tr).1 with
        | error e =>
          simp only [hsf, Outcome.exitErr.injEq] at h
          subst h
          simp only [hsf]
          exact hstart _ _ _ _ _ _ hsf hk
        | ok res => simp [hsf] at h
    · simp only [hs] at h ⊢
      simp only [Bool.false_eq_true, if_false] at h ⊢
      cases hsp : (stopFill that host that.FillDiskDirectory tr).1 with
      | some e =>
        simp only [hsp, Outcome.exitErr.injEq] at h
        subst h
        simp only [hsp]
        exact hstop _ _ hsp hk
      | none => simp [hsp] at h

/-- Witness of C7: with start and stop both set, `Exec` exits with the
invalid-mode error and has made no call. -/
theorem parameter_errors_make_no_call_witness :
    (Exec { startRequest channelAllSucceed "100" false false with FillDiskStop := true }
      (osHostOf ⟨1000, 500, 4096⟩ false) []).2 = [] :=
  (parameter_errors_make_no_call
    { startRequest channelAllSucceed "100" false false with FillDiskStop := true }
    (osHostOf ⟨1000, 500, 4096⟩ false) []).1 GoError.InvalidMode (by decide) (Or.inl rfl)

/-- C8. Fill strategy order in `startFill`, for a start that reached the fill:
`dd` calls are made exactly when `fallocate` is unavailable or failed with an
error other than a full disk; the fallback first runs the one-block test `dd`
and, when that fails, stops there without launching the background `dd`; and
whenever the fallback ran and its final response is a failure, `startFill`
returns that failure as an error. -/
theorem fill_strategy_order (that : FillDisk) (host : OsHost)
    (directory size percent reserve sz : String) (retainHandle : Bool) (tr : List Event)
    (hdir : directory ≠ "") (hspec : ¬ (size = "" ∧ percent = "" ∧ reserve = ""))
    (hcalc : calculateFileSize host.toHost directory size percent reserve = .ok sz) :
    ((∃ e ∈ (startFill that host directory size percent reserve retainHandle tr).2,
        e.caller = Caller.fillDiskByDD) ↔
      (that.Channel.IsCommandAvailable tr "fallocate" = false ∨
        ((that.Channel.Run (tr ++ [Event.IsCommandAvailable Caller.startFill "fallocate"])
            none "fallocate" (fallocateArgs sz (host.pathJoin directory fillDataFile))).Success
            = false ∧
          stringsContains
            (that.Channel.Run (tr ++ [Event.IsCommandAvailable Caller.startFill "fallocate"])
              none "fallocate" (fallocateArgs sz (host.pathJoin directory fillDataFile))).Err
            diskFillErrorMessage = false))) ∧
    (∀ t : List Event,
      (fillDiskByDD that (host.pathJoin directory fillDataFile) directory sz t).2.head?
        = some (Event.Run Caller.fillDiskByDD none "dd"
            (ddTestArgs (host.pathJoin directory fillDataFile))) ∧
      ((that.Channel.Run t none "dd"
          (ddTestArgs (host.pathJoin directory fillDataFile))).Success = false →
        fillDiskByDD that (host.pathJoin directory fillDataFile) directory sz t
          = (that.Channel.Run t none "dd" (ddTestArgs (host.pathJoin directory fillDataFile)),
            [Event.Run Caller.fillDiskByDD none "dd"
              (ddTestArgs (host.pathJoin directory fillDataFile))]))) ∧
    ((∃ e ∈ (startFill that host directory size percent reserve retainHandle tr).2,
        e.caller = Caller.fillDiskByDD) →
      (fillDiskByDD that (host.pathJoin directory fillDataFile) directory sz
        (tr ++ Event.IsCommandAvailable Caller.startFill "fallocate" ::
          (if that.Channel.IsCommandAvailable tr "fallocate" then
            [Event.Run Caller.fillDiskByFallocate none "fallocate"
              (fallocateArgs sz (host.pathJoin directory fillDataFile))]
          else []))).1.Success = false →
      (startFill that host directory size percent reserve retainHandle tr).1
        = .error (GoError.CommandFailed (Errorf
          (fillDiskByDD that (host.pathJoin directory fillDataFile) directory sz
            (tr ++ Event.IsCommandAvailable Caller.startFill "fallocate" ::
              (if that.Channel.IsCommandAvailable tr "fallocate" then
                [Event.Run Caller.fillDiskByFallocate none "fallocate"
                  (fallocateArgs sz (host.pathJoin directory fillDataFile))]
              else []))).1.Err))) := by
  have hiff := startFill_ranDD_iff that host directory size percent reserve sz retainHandle tr
    hdir hspec hcalc
  refine ⟨?_, ?_, ?_⟩
  · rw [hiff]
    exact fillStrategy_ranDD_iff that _ directory sz tr
  · intro t
    refine ⟨fillDiskByDD_first that _ directory sz t, ?_⟩
    intro hfail
    simp [fillDiskByDD, hfail]
  · intro hran hfail
    rw [hiff] at hran
    have hresp := fillStrategy_response_of_ranDD that _ directory sz tr hran
    rw [startFill_eq that host directory size percent reserve sz retainHandle tr hdir hspec hcalc,
      hresp]
    simp [hfail]

/-- Witness of C8: without `fallocate` the start makes a `dd` call. -/
theorem fill_strategy_order_witness :
    ∃ e ∈ (startFill (startRequest channelAllFail "100" false false)
      (osHostOf ⟨1000, 500, 4096⟩ false) "/data" "100" "" "" false []).2,
      e.caller = Caller.fillDiskByDD :=
  (fill_strategy_order (startRequest channelAllFail "100" false false)
    (osHostOf ⟨1000, 500, 4096⟩ false) "/data" "100" "" "" "100" false [] (by decide) (by decide)
    (by decide)).1.mpr (Or.inl (by decide))

/-- Counterexample to C9: a start with retain-handle set and retain-nohup unset
spawns the holder process with `nohup`. -/
theorem holder_spawn_counterexample :
    Exec (startRequest channelAllSucceed "100" true false) (osHostOf ⟨1000, 500, 4096⟩ false) []
      = (Outcome.exitOutput "",
        [Event.IsCommandAvailable Caller.startFill "fallocate",
          Event.Run Caller.fillDiskByFallocate none "fallocate"
            "-l 100M /data/chaos_filldisk.log.dat",
          Event.Run Caller.startRetainProcess none "nohup"
            ("/opt/chaosblade/bin/chaos_filldisk --start --retain-handle --retain-nohup"
              ++ " --directory /data >> /var/log/chaos.log 2>&1 &")]) := by
  decide

/-- C9, amended. The holder process is spawned only when the retain-handle flag
is set: a `startFill` without it makes no call from `startRetainProcess`.  The
retain-nohup flag is not required; an invocation of `Exec` that spawns the holder
has start set, retain-handle set and retain-nohup unset, since with both flags
set `Exec` becomes the holder itself and never reaches `startFill`. -/
theorem holder_spawn_requires_retain_handle (that : FillDisk) (host : OsHost)
    (tr : List Event) :
    (∀ (directory size percent reserve : String) (retainHandle : Bool),
      (∃ e ∈ (startFill that host directory size percent reserve retainHandle tr).2,
        e.caller = Caller.startRetainProcess) → retainHandle = true) ∧
    ((∃ e ∈ (Exec that host tr).2, e.caller = Caller.startRetainProcess) →
      that.FillDiskStart = true ∧ that.FillDiskRetainHandle = true
        ∧ that.FillDiskRetainNohup = false) := by
  have hstart : ∀ (directory size percent reserve : String) (retainHandle : Bool),
      (∃ e ∈ (startFill that host directory size percent reserve retainHandle tr).2,
        e.caller = Caller.startRetainProcess) → retainHandle = true := by
    intro directory size percent reserve retainHandle ⟨e, he, hc⟩
    by_cases hdir : directory = ""
    · simp [startFill, hdir] at he
    · by_cases hspec : size = "" ∧ percent = "" ∧ reserve = ""
      · simp [startFill, hdir, hspec] at he
      · cases hcalc : calculateFileSize host.toHost directory size percent reserve with
        | error err => simp [startFill, hdir, hspec, hcalc] at he
        | ok sz =>
          rw [startFill_eq that host directory size percent reserve sz retainHandle tr
            hdir hspec hcalc] at he
          have hfill : ∀ e' ∈ (fillStrategy that (host.pathJoin directory fillDataFile)
              directory sz tr).2, e'.caller ≠ Caller.startRetainProcess := by
            intro e' he'
            rcases fillStrategy_callers that _ directory sz tr e' he' with h | h | h <;>
              rw [h] <;> decide
          split_ifs at he with h1 h2
          · exact h2
          · simp only [List.append_nil] at he
            exact absurd hc (hfill e he)
          · simp only [List.mem_append] at he
            rcases he with he | he
            · exact absurd hc (hfill e he)
            · have := stopFill_callers _ _ _ _ e he
              rw [this] at hc; cases hc
  refine ⟨hstart, ?_⟩
  rintro ⟨e, he, hc⟩
  unfold Exec at he
  by_cases hmode : that.FillDiskStart = that.FillDiskStop
  · simp [hmode] at he
  · simp only [hmode, if_false] at he
    by_cases hs : that.FillDiskStart = true
    · simp only [hs, if_true] at he
      by_cases hr : that.FillDiskRetainHandle = true ∧ that.FillDiskRetainNohup = true
      · simp only [hr, and_self, if_true] at he
        cases hret : retainFileHandle that host tr <;> simp [hret] at he
      · simp only [hr, if_false] at he
        have hev : e ∈ (startFill that host that.FillDiskDirectory that.FillDiskSize
            that.FillDiskPercent that.ReserveDiskSize that.FillDiskRetainHandle tr).2 := by
          cases hsf : (startFill that host that.FillDiskDirectory that.FillDiskSize
            that.FillDiskPercent that.ReserveDiskSize that.FillDiskRetainHandle tr).1 <;>
            simpa [hsf] using he
        have hh := hstart _ _ _ _ _ ⟨e, hev, hc⟩
        refine ⟨hs, hh, ?_⟩
        cases hn : that.FillDiskRetainNohup
        · rfl
        · exact absurd ⟨hh, hn⟩ hr
    · simp only [hs] at he
      simp only [Bool.false_eq_true, if_false] at he
      have hev : e ∈ (stopFill that host that.FillDiskDirectory tr).2 := by
        cases hsp : (stopFill that host that.FillDiskDirectory tr).1 <;> simpa [hsp] using he
      have := stopFill_callers _ _ _ _ e hev
      rw [this] at hc; cases hc

/-- Witness of C9: the spawning invocation has retain-handle set and
retain-nohup unset. -/
theorem holder_spawn_requires_retain_handle_witness :
    (startRequest channelAllSucceed "100" true false).FillDiskStart = true ∧
      (startRequest channelAllSucceed "100" true false).FillDiskRetainHandle = true ∧
      (startRequest channelAllSucceed "100" true false).FillDiskRetainNohup = false :=
  (holder_spawn_requires_retain_handle (startRequest channelAllSucceed "100" true false)
    (osHostOf ⟨1000, 500, 4096⟩ false) []).2
    ⟨Event.Run Caller.startRetainProcess none "nohup"
      ("/opt/chaosblade/bin/chaos_filldisk --start --retain-handle --retain-nohup"
        ++ " --directory /data >> /var/log/chaos.log 2>&1 &"), by decide, by decide⟩

/-- C10. `stopFill` is idempotent when nothing is running: on a non-empty
directory whose artifact file does not exist it returns no error after its two
lookups and two kills, whatever the channel answers to them; it returns an error
only when the directory is empty or when the file exists and its removal
fails. -/
theorem stopFill_idempotent (that : FillDisk) (host : OsHost) (directory : String)
    (tr : List Event) :
    (directory ≠ "" →
      host.IsExist (tr ++ killEvents that host tr) (host.pathJoin directory fillDataFile) = false →
      stopFill that host directory tr = (none, killEvents that host tr)) ∧
    ((stopFill that host directory tr).1 ≠ none ↔
      (directory = "" ∨
        (host.IsExist (tr ++ killEvents that host tr) (host.pathJoin directory fillDataFile)
            = true ∧
          (that.Channel.Run (tr ++ killEvents that host tr) (some host.fillDiskBin) "rm"
            (rmArgs (host.pathJoin directory fillDataFile))).Success = false))) := by
  constructor
  · intro hdir hno
    rw [stopFill_events that host directory tr hdir]
    simp [hno]
  · by_cases hdir : directory = ""
    · simp [stopFill, hdir]
    · rw [stopFill_events that host directory tr hdir]
      split_ifs with h1 h2
      · simp [hdir, h1, h2]
      · simp [hdir, h1, h2]
      · simp [hdir, h1]

/-- Witness of C10: nothing runs, the lookups fail and the kills fail, and
`stopFill` still returns no error. -/
theorem stopFill_idempotent_witness :
    stopFill (startRequest channelAllFail "" false false)
        (osHostOf ⟨1000, 500, 4096⟩ false) "/data" []
      = (none,
        [Event.GetPidsByProcessName Caller.stopFill "chaos_filldisk.log.dat" none,
          Event.Run Caller.stopFill none "kill" "-9 ",
          Event.GetPidsByProcessName Caller.stopFill "retain-nohup" (some "chaos_filldisk"),
          Event.Run Caller.stopFill (some "chaos_filldisk") "kill" "-9 "]) :=
  ((stopFill_idempotent (startRequest channelAllFail "" false false)
    (osHostOf ⟨1000, 500, 4096⟩ false) "/data" []).1 (by decide) (by decide)).trans (by decide)

end filldisk
